import Mathlib

set_option maxRecDepth 4000

/-!
Verification of `challenge.py`: a tool that parses address records from
XML, TSV and TXT files, concatenates them and emits them as a JSON array
sorted by ZIP code.

Modelling conventions of the shallow embedding:
* Python strings are `List Char` (`Str`); Python's `str.strip`, `str.split`,
  string comparison and the regular expressions used by the program are
  modelled character by character over the ASCII-style whitespace/digit/letter
  classes below.
* Python dictionaries are association lists in insertion order; every record
  built by the program inserts each key at most once.
* `None` results of the fallible parsers become `Option.none`.
-/

abbrev Str := List Char

/-- Whitespace class shared by the model of Python's `str.strip` and of the
regex class `\s`: space, tab, newline, carriage return, vertical tab,
form feed. -/
def pySpace (c : Char) : Bool :=
  c = ' ' || c = '\t' || c = '\n' || c = '\r' || c = '\x0b' || c = '\x0c'

/-- All characters of `l` are whitespace. -/
def allWs (l : Str) : Bool := l.all pySpace

/-- Python `str.strip()`: drop whitespace from both ends. -/
def strip (l : Str) : Str :=
  ((l.dropWhile pySpace).reverse.dropWhile pySpace).reverse

/-- Python `s.split(sep)` for a one-character separator: split at every
occurrence, keeping empty pieces; splitting the empty string gives `[""]`. -/
def splitOnC (sep : Char) : Str → List Str
  | [] => [[]]
  | c :: rest =>
    let r := splitOnC sep rest
    if c = sep then [] :: r else (c :: r.headD []) :: r.tail

/-- Python `file.readlines()`: the lines of the text, each keeping its
terminating newline; the empty text has no lines. -/
def readlines : Str → List Str
  | [] => []
  | c :: rest =>
    if c = '\n' then ['\n'] :: readlines rest
    else
      match readlines rest with
      | [] => [[c]]
      | h :: t => (c :: h) :: t

/-- Index of the last occurrence of `c`, if any. -/
def lastIdxOf (c : Char) : Str → Option Nat
  | [] => none
  | x :: rest =>
    match lastIdxOf c rest with
    | some j => some (j + 1)
    | none => if x = c then some 0 else none

/-- Records are Python dicts mapping field names to string values, kept in
insertion order (each parser inserts every key at most once). -/
abbrev Record := List (String × Str)

/-- Python `key in record`. -/
def hasKey (r : Record) (k : String) : Bool := r.any (fun kv => kv.1 = k)

/-- Python `record[key]` / `record.get(key)`: first binding of the key. -/
def recGet (k : String) : Record → Option Str
  | [] => none
  | kv :: r => if kv.1 = k then some kv.2 else recGet k r

/-! ## ZIP normalizer (`normalize_zip_code`) -/

/-- One attempt of the regex `\d{5}` at a fixed position: the first five
characters when they exist and are all decimal digits. -/
def fiveDigitsHere (l : Str) : Option Str :=
  let w := l.take 5
  if w.length = 5 && w.all Char.isDigit then some w else none

/-- The scan of `re.search(r'(\d{5})', s)`: try every start position from the
left and return the first match. -/
def searchFiveDigits : Str → Option Str
  | [] => none
  | c :: rest =>
    match fiveDigitsHere (c :: rest) with
    | some w => some w
    | none => searchFiveDigits rest

/-- `normalize_zip_code` from challenge.py: the empty string and strings with
no five consecutive digits map to the fallback key `"00000"`; otherwise the
first `\d{5}` match is returned. -/
def normalize_zip_code (zip_code : Str) : Str :=
  if zip_code = [] then "00000".data
  else
    match searchFiveDigits zip_code with
    | some w => w
    | none => "00000".data

/-! ## Markup (XML) parser -/

/-- One `record` element of an XML file as read through the external
`xml.etree` collaborator. For each recognized child tag, `none` models an
absent child element, `some none` a child whose `.text` is Python `None`,
and `some (some t)` a child with text `t`. -/
structure XmlRecord where
  name : Option (Option Str)
  organization : Option (Option Str)
  street : Option (Option Str)
  city : Option (Option Str)
  county : Option (Option Str)
  state : Option (Option Str)
  zip : Option (Option Str)

/-- Python's truthiness guard `elem is not None and elem.text`: gives the text
when the element exists and its text is neither `None` nor empty. -/
def xmlText : Option (Option Str) → Option Str
  | some (some t) => if t = [] then none else some t
  | _ => none

/-- An optional XML field: included (with stripped text) exactly when the
truthiness guard passes on the raw text. -/
def xmlField (k : String) (v : Option (Option Str)) : Record :=
  match xmlText v with
  | some t => [(k, strip t)]
  | none => []

/-- The non-identity fields of an XML record, in source order. -/
def xmlRest (r : XmlRecord) : Record :=
  xmlField "street" r.street ++ xmlField "city" r.city ++
  xmlField "county" r.county ++ xmlField "state" r.state ++
  xmlField "zip" r.zip

/-- One XML record: prefer `name`, else `organization`, else skip. -/
def parseXmlRecord (r : XmlRecord) : Option Record :=
  match xmlText r.name, xmlText r.organization with
  | some t, _ => some (("name", strip t) :: xmlRest r)
  | none, some t => some (("organization", strip t) :: xmlRest r)
  | none, none => none

/-- `parse_xml_file`, applied to the record elements delivered by the
(external) XML parser. -/
def parse_xml_file (recs : List XmlRecord) : List Record :=
  recs.filterMap parseXmlRecord

/-! ## Tabular (TSV) parser -/

/-- The dictionary `column_data`: `column_data[header[j]] = fields[j].strip()`
for every `j` below both lengths; with duplicate column names the later
assignment wins, hence the lookup scans the zipped pairs from the right. -/
def assocRight (k : Str) : List (Str × Str) → Option Str
  | [] => none
  | kv :: rest => if kv.1 = k then some kv.2 else assocRight k rest

/-- Lookup in `column_data`. -/
def colGet (header fields : List Str) (k : Str) : Option Str :=
  assocRight k ((header.zip (fields.map strip)).reverse)

/-- The guard `k in column_data and column_data[k] and column_data[k] != 'N/A'`:
the column's value when present, truthy and not the sentinel. -/
def tsvVal (header fields : List Str) (k : Str) : Option Str :=
  match colGet header fields k with
  | some v => if v ≠ [] && v ≠ "N/A".data then some v else none
  | none => none

/-- Identity resolution of the TSV parser: organization when present, truthy
and non-sentinel; otherwise a name composed from `first`, optional non-sentinel
`middle`, and `last`, provided the `first` and `last` columns are present. -/
def tsvIdentity (header fields : List Str) : Record :=
  match tsvVal header fields "organization".data with
  | some v => [("organization", v)]
  | none =>
    match colGet header fields "first".data, colGet header fields "last".data with
    | some f, some la =>
      let mid : List Str :=
        match colGet header fields "middle".data with
        | some m => if m ≠ [] && m ≠ "N/M/N".data then [m] else []
        | none => []
      [("name", List.intercalate [' '] ([f] ++ mid ++ [la]))]
    | _, _ => []

/-- An optional output field of the TSV parser. -/
def tsvOpt (k : String) : Option Str → Record
  | some x => [(k, x)]
  | none => []

/-- ZIP composition of the TSV parser: `zip` alone, or `zip-zip4` when both
columns are present, truthy and non-sentinel. -/
def tsvZip (header fields : List Str) : Record :=
  match tsvVal header fields "zip".data with
  | some z =>
    match tsvVal header fields "zip4".data with
    | some z4 => [("zip", z ++ '-' :: z4)]
    | none => [("zip", z)]
  | none => []

/-- The address dictionary built from one split data row. -/
def buildAddr (header fields : List Str) : Record :=
  tsvIdentity header fields
    ++ tsvOpt "street" (tsvVal header fields "address".data)
    ++ tsvOpt "city" (tsvVal header fields "city".data)
    ++ tsvOpt "county" (tsvVal header fields "county".data)
    ++ tsvOpt "state" (tsvVal header fields "state".data)
    ++ tsvZip header fields

/-- The acceptance rule of the TSV parser: keep a record only when it has an
identity field and more than one field in total. -/
def tsvKeep (addr : Record) : Option Record :=
  if (hasKey addr "name" || hasKey addr "organization") && addr.length > 1
  then some addr else none

/-- One data line of the TSV parser: blank lines are skipped, other lines are
stripped, split on tabs, mapped positionally through the header, and the
resulting record is kept only when the acceptance rule passes. -/
def tsvRow (header : List Str) (line : Str) : Option Record :=
  if strip line = [] then none
  else tsvKeep (buildAddr header (splitOnC '\t' (strip line)))

/-- `parse_tsv_file`, applied to the result of `readlines`: an empty file is
an error (`none`); otherwise the first line is the header and every further
line is processed by `tsvRow`. -/
def parse_tsv_file : List Str → Option (List Record)
  | [] => none
  | l0 :: rest => some (rest.filterMap (tsvRow (splitOnC '\t' (strip l0))))

/-! ## Free-text (TXT) parser -/

/-- A step towards `re.split(r'\n\s*\n', content)`: given the text following a
newline, the greedy `\s*` takes the maximal whitespace run and backtracks to
the last newline inside it; the result is the text after the matched
separator, or `none` when the run contains no further newline. -/
def findSep (rest : Str) : Option Str :=
  match lastIdxOf '\n' (rest.takeWhile pySpace) with
  | some j => some (rest.drop (j + 1))
  | none => none

theorem findSep_length_le {rest r2 : Str} (h : findSep rest = some r2) :
    r2.length ≤ rest.length := by
  unfold findSep at h
  cases hl : lastIdxOf '\n' (rest.takeWhile pySpace) with
  | none => simp [hl] at h
  | some j =>
    simp only [hl] at h
    cases h
    simp

/-- The scanner of `re.split(r'\n\s*\n', content)`: `acc` holds the current
piece in reverse; a separator match closes the current piece and restarts
after the match. Every step consumes at least one character, so the scanner
recurses structurally on a fuel bounded below by the length of the text. -/
def sbAux : Nat → Str → Str → List Str
  | 0, acc, _ => [acc.reverse]
  | fuel + 1, acc, s =>
    match s with
    | [] => [acc.reverse]
    | c :: rest =>
      if c = '\n' then
        match findSep rest with
        | some r2 => acc.reverse :: sbAux fuel [] r2
        | none => sbAux fuel (c :: acc) rest
      else sbAux fuel (c :: acc) rest

/-- `re.split(r'\n\s*\n', content)`. -/
def splitBlank (content : Str) : List Str := sbAux content.length [] content

/-- Is one of the string literals of the corporate-marker regex
`(Inc\.|LLC|Ltd\.|\bLLC\b|Company|Corp\.|Corporation)` equal to a leading
piece of the text? -/
def beginsWith : Str → Str → Bool
  | [], _ => true
  | _ :: _, [] => false
  | a :: as, b :: bs => a = b && beginsWith as bs

/-- Does `needle` occur anywhere in the text? -/
def containsTok (needle : Str) : Str → Bool
  | [] => beginsWith needle []
  | c :: rest => beginsWith needle (c :: rest) || containsTok needle rest

/-- The identity-line classifier `re.search(r'(Inc\.|LLC|Ltd\.|\bLLC\b|Company|Corp\.|Corporation)', line)`:
such a search succeeds exactly when one of the literal alternatives occurs in
the line (the `\bLLC\b` alternative is subsumed by the plain `LLC` one). -/
def hasOrgMarker (l : Str) : Bool :=
  containsTok "Inc.".data l || containsTok "LLC".data l ||
  containsTok "Ltd.".data l || containsTok "Company".data l ||
  containsTok "Corp.".data l || containsTok "Corporation".data l

/-- Candidate continuations of a greedy `p*` at the current position: all
splits of a leading run of `p`-characters, longest first. -/
def starSplits (p : Char → Bool) (s : Str) : List (Str × Str) :=
  (List.range ((s.takeWhile p).length + 1)).reverse.map
    (fun k => (s.take k, s.drop k))

/-- Candidate continuations of a greedy `p+`: as `p*` but consuming at least
one character. -/
def plusSplits (p : Char → Bool) (s : Str) : List (Str × Str) :=
  (starSplits p s).filter (fun pr => pr.1 ≠ [])

/-- Consume one literal character. -/
def expectChar (c : Char) : Str → List Str
  | x :: rest => if x = c then [rest] else []
  | [] => []

/-- `\d{5}` at the current position (no choice points). -/
def fiveD (s : Str) : List (Str × Str) :=
  match fiveDigitsHere s with
  | some w => [(w, s.drop 5)]
  | none => []

/-- `(?:-\d{4})?` at the current position, the present branch preferred. -/
def dash4 (s : Str) : List (Str × Str) :=
  (match s with
   | '-' :: rest =>
     let w := rest.take 4
     if w.length = 4 && w.all Char.isDigit then [('-' :: w, rest.drop 4)] else []
   | _ => []) ++ [([], s)]

/-- The ASCII letter class `[A-Za-z]`. -/
def isAlpha (c : Char) : Bool := ('A' ≤ c && c ≤ 'Z') || ('a' ≤ c && c ≤ 'z')

/-- The four capture groups of the location pattern. -/
structure LocGroups where
  city : Str
  county : Option Str
  state : Str
  zip : Str
deriving DecidableEq, Repr

/-- The optional county group `(?:([^,]+),\s*)?`, present branch first. -/
def countyAlts (s : Str) : List (Option Str × Str) :=
  ((plusSplits (fun c => c ≠ ',') s).flatMap (fun g2 =>
    (expectChar ',' g2.2).flatMap (fun r =>
      (starSplits pySpace r).map (fun w => (some g2.1, w.2)))))
  ++ [(none, s)]

/-- The state group `([A-Za-z]{2}|[A-Za-z]+)`, the two-letter branch first. -/
def stateAlts (s : Str) : List (Str × Str) :=
  (let w := s.take 2
   if w.length = 2 && w.all isAlpha then [(w, s.drop 2)] else [])
  ++ plusSplits isAlpha s

/-- All matches, in backtracking preference order, of the location pattern
`([^,]+),\s*(?:([^,]+),\s*)?([A-Za-z]{2}|[A-Za-z]+)\s+(\d{5}(?:-\d{4})?)`
anchored at the start of `s`. -/
def locHere (s : Str) : List LocGroups :=
  (plusSplits (fun c => c ≠ ',') s).flatMap (fun g1 =>
    (expectChar ',' g1.2).flatMap (fun r1 =>
      (starSplits pySpace r1).flatMap (fun w1 =>
        (countyAlts w1.2).flatMap (fun co =>
          (stateAlts co.2).flatMap (fun st =>
            (plusSplits pySpace st.2).flatMap (fun w2 =>
              (fiveD w2.2).flatMap (fun z =>
                (dash4 z.2).map (fun d =>
                  { city := g1.1, county := co.1, state := st.1,
                    zip := z.1 ++ d.1 }))))))))

/-- `re.search` with the location pattern: the first start position (from the
left) at which the pattern matches, with that position's preferred match. -/
def locSearch : Str → Option LocGroups
  | [] => (locHere []).head?
  | c :: rest =>
    match (locHere (c :: rest)).head? with
    | some g => some g
    | none => locSearch rest

/-- The city/county/state/zip fields extracted from the last line of a
paragraph, empty when the location pattern does not match. -/
def locFields (lastLine : Str) : Record :=
  match locSearch lastLine with
  | some g =>
    ("city", strip g.city) ::
      ((match g.county with
        | some co => [("county", strip co)]
        | none => []) ++
       [("state", strip g.state), ("zip", strip g.zip)])
  | none => []

/-- The identity line of a free-text paragraph: organization when it carries a
corporate marker, name otherwise. -/
def txtIdentity (l1 : Str) : Record :=
  if hasOrgMarker l1 then [("organization", l1)] else [("name", l1)]

/-- The street field of a free-text paragraph: line 2, when present. -/
def txtStreet (ls : List Str) : Record :=
  if 2 ≤ ls.length then [("street", ls.getD 1 [])] else []

/-- The location fields of a free-text paragraph: from the last line, when
there are at least three lines. -/
def txtLoc (ls : List Str) : Record :=
  if 3 ≤ ls.length then locFields (ls.getLastD []) else []

/-- One piece of the blank-line split: blank pieces are skipped; otherwise the
piece is stripped, split into stripped lines, line 1 classified as
organization or name, line 2 (when present) taken as street, and the last
line (when there are at least three) matched against the location pattern. -/
def txtChunk (chunk : Str) : Option Record :=
  if strip chunk = [] then none
  else
    match (splitOnC '\n' (strip chunk)).map strip with
    | [] => none
    | l1 :: rest =>
      some (txtIdentity l1 ++ txtStreet (l1 :: rest) ++ txtLoc (l1 :: rest))

/-- `parse_txt_file`: one record per non-blank piece of the blank-line
split. -/
def parse_txt_file (content : Str) : List Record :=
  (splitBlank content).filterMap txtChunk

/-! ## Dispatcher and driver -/

/-- ASCII `str.lower()` on one character. -/
def lowerChar (c : Char) : Char :=
  if 'A' ≤ c && c ≤ 'Z' then Char.ofNat (c.toNat + 32) else c

/-- `os.path.splitext(p)[1]`: the suffix of the basename starting at its last
dot, where dots leading the basename do not count. -/
def extOf (p : Str) : Str :=
  let base := (p.reverse.takeWhile (· ≠ '/')).reverse
  let tail := base.drop (base.takeWhile (· = '.')).length
  match lastIdxOf '.' tail with
  | some j => tail.drop j
  | none => []

/-- One input file. `raw` is the text content; `xmlView` is the external
`xml.etree` collaborator's reading of that content, used only when the file is
dispatched to the XML parser (`none` models an `ET.ParseError`). -/
structure InputFile where
  name : Str
  raw : Str
  xmlView : Option (List XmlRecord)

/-- `parse_file`: dispatch on the lower-cased extension; unsupported
extensions fail. -/
def parse_file (f : InputFile) : Option (List Record) :=
  let ext := (extOf f.name).map lowerChar
  if ext = ".xml".data then f.xmlView.map parse_xml_file
  else if ext = ".tsv".data then parse_tsv_file (readlines f.raw)
  else if ext = ".txt".data then some (parse_txt_file f.raw)
  else none

/-- Python string comparison (`<=` induced by `<`): lexicographic on code
points. -/
def strLe : Str → Str → Bool
  | [], _ => true
  | _ :: _, [] => false
  | a :: as, b :: bs => if a.toNat = b.toNat then strLe as bs else decide (a.toNat < b.toNat)

/-- The sort key of the driver: `normalize_zip_code(record.get('zip', ''))`. -/
def sortKey (r : Record) : Str := normalize_zip_code ((recGet "zip" r).getD [])

/-- Comparison of two records by their sort key. -/
def recLe (a b : Record) : Bool := strLe (sortKey a) (sortKey b)

/-- The driver's `sorted(all_addresses, key=...)`: a stable sort by the
normalized ZIP key. -/
def sortRecords (rs : List Record) : List Record := rs.mergeSort recLe

/-- The driver's collection loop: parse each file in order, abort on the
first failure, otherwise concatenate in input order. -/
def collect : List InputFile → Option (List Record)
  | [] => some []
  | f :: fs =>
    match parse_file f with
    | none => none
    | some rs => (collect fs).map (fun rest => rs ++ rest)

/-- The driver `main`: `some out` models a successful run that prints the
sorted array and writes it to `output.json`; `none` models `sys.exit(1)` with
no output written. -/
def mainRun (files : List InputFile) : Option (List Record) :=
  (collect files).map sortRecords

/-! ## Basic lemmas about the string model -/

theorem dropWhile_of_head_neg {p : Char → Bool} {l : Str} {c : Char}
    (h : l.head? = some c) (hc : p c = false) : l.dropWhile p = l := by
  cases l with
  | nil => simp at h
  | cons a as =>
    simp only [List.head?_cons, Option.some.injEq] at h
    subst h
    simp [List.dropWhile_cons, hc]

theorem dropWhile_head_not {p : Char → Bool} {l : Str} {c : Char}
    (h : (l.dropWhile p).head? = some c) : p c = false := by
  induction l with
  | nil => simp at h
  | cons a as ih =>
    by_cases hp : p a
    · rw [List.dropWhile_cons_of_pos hp] at h; exact ih h
    · rw [List.dropWhile_cons_of_neg hp] at h
      simp only [List.head?_cons, Option.some.injEq] at h
      subst h
      simpa using hp

theorem getLast?_dropWhile {p : Char → Bool} {l : Str}
    (h : l.dropWhile p ≠ []) : (l.dropWhile p).getLast? = l.getLast? := by
  induction l with
  | nil => simp at h
  | cons a as ih =>
    by_cases hp : p a
    · rw [List.dropWhile_cons_of_pos hp] at h ⊢
      rw [ih h]
      have : as ≠ [] := by
        intro he; rw [he] at h; simp at h
      cases as with
      | nil => simp at this
      | cons b bs => simp [List.getLast?_cons_cons]
    · rw [List.dropWhile_cons_of_neg hp]

theorem mem_dropWhile_of_not {p : Char → Bool} {l : Str} {x : Char}
    (hx : x ∈ l) (hpx : p x = false) : x ∈ l.dropWhile p := by
  induction l with
  | nil => simp at hx
  | cons a as ih =>
    by_cases hpa : p a
    · rw [List.dropWhile_cons_of_pos hpa]
      rcases List.mem_cons.mp hx with h1 | h2
      · subst h1; rw [hpa] at hpx; cases hpx
      · exact ih h2
    · rw [List.dropWhile_cons_of_neg hpa]; exact hx

theorem strip_eq_nil_iff {l : Str} : strip l = [] ↔ allWs l = true := by
  unfold strip allWs
  constructor
  · intro h
    rw [List.reverse_eq_nil_iff, List.dropWhile_eq_nil_iff] at h
    rw [List.all_eq_true]
    intro x hx
    by_cases hws : pySpace x
    · exact hws
    · exfalso
      have hx1 : x ∈ l.dropWhile pySpace :=
        mem_dropWhile_of_not hx (by simpa using hws)
      have hx2 : x ∈ (l.dropWhile pySpace).reverse := List.mem_reverse.mpr hx1
      exact hws (h x hx2)
  · intro h
    rw [List.all_eq_true] at h
    have h1 : l.dropWhile pySpace = [] :=
      List.dropWhile_eq_nil_iff.mpr (fun x hx => h x hx)
    simp [h1]

theorem strip_cons_ws {c : Char} {l : Str} (hc : pySpace c = true) :
    strip (c :: l) = strip l := by
  unfold strip
  rw [List.dropWhile_cons_of_pos hc]

theorem dropWhile_concat_of_ne_nil {p : Char → Bool} {l : Str} {c : Char}
    (h : l.dropWhile p ≠ []) : (l ++ [c]).dropWhile p = l.dropWhile p ++ [c] := by
  induction l with
  | nil => simp at h
  | cons a as ih =>
    by_cases hp : p a
    · rw [List.dropWhile_cons_of_pos hp] at h ⊢
      rw [List.cons_append, List.dropWhile_cons_of_pos hp]
      exact ih h
    · rw [List.cons_append, List.dropWhile_cons_of_neg hp, List.dropWhile_cons_of_neg hp]
      simp

theorem strip_concat_ws {c : Char} {l : Str} (hc : pySpace c = true) :
    strip (l ++ [c]) = strip l := by
  by_cases h : l.dropWhile pySpace = []
  · have hall : ∀ x ∈ l, pySpace x := List.dropWhile_eq_nil_iff.mp h
    have h2 : (l ++ [c]).dropWhile pySpace = [] := by
      rw [List.dropWhile_eq_nil_iff]
      intro x hx
      rcases List.mem_append.mp hx with h1 | h1
      · exact hall x h1
      · simp only [List.mem_singleton] at h1; subst h1; exact hc
    unfold strip
    rw [h, h2]
  · unfold strip
    rw [dropWhile_concat_of_ne_nil h, List.reverse_append]
    simp only [List.reverse_cons, List.reverse_nil, List.nil_append, List.singleton_append]
    rw [List.dropWhile_cons_of_pos hc]

theorem strip_idem {l : Str} : strip (strip l) = strip l := by
  by_cases h : strip l = []
  · rw [h]; rfl
  · unfold strip
    set M : Str := (l.dropWhile pySpace).reverse.dropWhile pySpace with hM
    have hM_ne : M ≠ [] := by
      intro he
      apply h
      unfold strip
      rw [← hM, he]
      rfl
    -- the first character of M.reverse, i.e. the last of M, is not whitespace
    have hrev : M.reverse.dropWhile pySpace = M.reverse := by
      cases hhd : M.reverse.head? with
      | none =>
        exfalso
        rw [List.head?_eq_none_iff, List.reverse_eq_nil_iff] at hhd
        exact hM_ne hhd
      | some c =>
        apply dropWhile_of_head_neg hhd
        -- c is the head of a dropWhile result (M itself read backwards)
        have : M.head? = some (M.reverse.getLast (by
          intro he; rw [List.reverse_eq_nil_iff] at he; exact hM_ne he)) := by
          rw [← List.getLast?_reverse]
          rw [List.getLast?_eq_getLast _ (by
            intro he; rw [List.reverse_eq_nil_iff] at he; exact hM_ne he)]
        -- instead argue on the other end: head of M is non-space
        have hh : ∀ d, M.head? = some d → pySpace d = false := by
          intro d hd
          exact dropWhile_head_not (l := (l.dropWhile pySpace).reverse) (by rw [← hM]; exact hd)
        -- and the head of M.reverse is the last of M; show it is non-space
        -- the last of M equals the last of (l.dropWhile pySpace).reverse,
        -- whose last is the head of l.dropWhile pySpace, a non-space character
        have hlast : M.getLast? = ((l.dropWhile pySpace).reverse).getLast? := by
          rw [hM]; exact getLast?_dropWhile hM_ne
        have hc : M.getLast? = some c := by
          rw [← List.head?_reverse]; exact hhd
        rw [hlast] at hc
        rw [List.getLast?_reverse] at hc
        exact dropWhile_head_not hc
    rw [hrev, List.reverse_reverse]
    have hMhead : M.dropWhile pySpace = M := by
      cases hhd : M.head? with
      | none =>
        exfalso; rw [List.head?_eq_none_iff] at hhd; exact hM_ne hhd
      | some c =>
        apply dropWhile_of_head_neg hhd
        exact dropWhile_head_not (l := (l.dropWhile pySpace).reverse) (by rw [← hM]; exact hhd)
    rw [hMhead]

theorem strip_ne_nil_head {l : Str} (h : strip l ≠ []) :
    ∃ c, (strip l).head? = some c ∧ pySpace c = false := by
  cases hhd : (strip l).head? with
  | none => exact absurd (List.head?_eq_none_iff.mp hhd) h
  | some c =>
    refine ⟨c, rfl, ?_⟩
    unfold strip at hhd
    rw [List.head?_reverse] at hhd
    -- c is the last element of a backwards dropWhile; go through reverse
    have h1 : ((l.dropWhile pySpace).reverse.dropWhile pySpace) ≠ [] := by
      intro he
      apply h
      unfold strip
      rw [he]
      rfl
    rw [getLast?_dropWhile h1, List.getLast?_reverse] at hhd
    exact dropWhile_head_not hhd

theorem allWs_reverse {l : Str} : allWs l.reverse = allWs l := by
  unfold allWs
  simp [List.all_eq_true]

/-! ## Claim C1: the ZIP normalizer -/

/-- Modelled from the spec's words for comparison: the maximal runs of
consecutive decimal digits of a string, in order. `cur` accumulates the
current run in reverse. -/
def digitRunsAux : Str → Str → List Str
  | [], cur => if cur = [] then [] else [cur.reverse]
  | c :: rest, cur =>
    if c.isDigit then digitRunsAux rest (c :: cur)
    else if cur = [] then digitRunsAux rest []
    else cur.reverse :: digitRunsAux rest []

/-- Modelled from the spec's words: the maximal digit runs of a string.
The spec's "first run of exactly 5 decimal digits" is the first element of
this list having length 5. -/
def digitRuns (s : Str) : List Str := digitRunsAux s []

/-- A window of five decimal digits starts at position `i` of `s`. -/
def digitWindowAt (s : Str) (i : Nat) : Prop :=
  i + 5 ≤ s.length ∧ ∀ c ∈ (s.drop i).take 5, c.isDigit = true

instance (s : Str) (i : Nat) : Decidable (digitWindowAt s i) := by
  unfold digitWindowAt; infer_instance

theorem fiveDigitsHere_eq_some {s w : Str} :
    fiveDigitsHere s = some w ↔ digitWindowAt s 0 ∧ w = s.take 5 := by
  unfold fiveDigitsHere digitWindowAt
  simp only [List.drop_zero]
  by_cases hif : ((s.take 5).length = 5 && (s.take 5).all Char.isDigit) = true
  · rw [if_pos hif]
    simp only [Bool.and_eq_true, decide_eq_true_eq] at hif
    rcases hif with ⟨h5, hd⟩
    rw [List.length_take] at h5
    constructor
    · intro h
      injection h with hw
      refine ⟨⟨by omega, ?_⟩, hw.symm⟩
      intro c hc
      exact (List.all_eq_true.mp hd) c hc
    · intro ⟨_, hw⟩
      rw [hw]
  · rw [if_neg hif]
    constructor
    · intro h; simp at h
    · rintro ⟨⟨hlen, hdig⟩, _⟩
      exfalso
      apply hif
      simp only [Bool.and_eq_true, decide_eq_true_eq]
      constructor
      · rw [List.length_take]; omega
      · rw [List.all_eq_true]; exact hdig

theorem fiveDigitsHere_eq_none {s : Str} :
    fiveDigitsHere s = none ↔ ¬ digitWindowAt s 0 := by
  constructor
  · intro h hw
    have : fiveDigitsHere s = some (s.take 5) := fiveDigitsHere_eq_some.mpr ⟨hw, rfl⟩
    rw [h] at this
    cases this
  · intro h
    cases hfd : fiveDigitsHere s with
    | none => rfl
    | some w => exact absurd (fiveDigitsHere_eq_some.mp hfd).1 h

theorem digitWindowAt_cons {c : Char} {s : Str} {i : Nat} :
    digitWindowAt (c :: s) (i + 1) ↔ digitWindowAt s i := by
  unfold digitWindowAt
  simp only [List.length_cons, List.drop_succ_cons]
  constructor
  · rintro ⟨h1, h2⟩; exact ⟨by omega, h2⟩
  · rintro ⟨h1, h2⟩; exact ⟨by omega, h2⟩

theorem searchFiveDigits_eq_none {s : Str} :
    searchFiveDigits s = none ↔ ∀ i, ¬ digitWindowAt s i := by
  induction s with
  | nil =>
    constructor
    · intro _ i ⟨h1, _⟩
      simp at h1
    · intro _; rfl
  | cons c rest ih =>
    cases hfd : fiveDigitsHere (c :: rest) with
    | some w =>
      simp only [searchFiveDigits, hfd]
      constructor
      · intro h; simp at h
      · intro h; exact absurd (fiveDigitsHere_eq_some.mp hfd).1 (h 0)
    | none =>
      simp only [searchFiveDigits, hfd]
      rw [ih]
      constructor
      · intro h i
        cases i with
        | zero => exact fiveDigitsHere_eq_none.mp hfd
        | succ j => exact fun hw => h j (digitWindowAt_cons.mp hw)
      · intro h i
        exact fun hw => h (i + 1) (digitWindowAt_cons.mpr hw)

theorem searchFiveDigits_eq_some {s w : Str} (h : searchFiveDigits s = some w) :
    ∃ i, digitWindowAt s i ∧ (∀ j, j < i → ¬ digitWindowAt s j) ∧
      w = (s.drop i).take 5 := by
  induction s generalizing w with
  | nil => cases h
  | cons c rest ih =>
    cases hfd : fiveDigitsHere (c :: rest) with
    | some w0 =>
      simp only [searchFiveDigits, hfd] at h
      injection h with hw
      subst hw
      rcases fiveDigitsHere_eq_some.mp hfd with ⟨hw0, he⟩
      exact ⟨0, hw0, by omega, by simpa using he⟩
    | none =>
      simp only [searchFiveDigits, hfd] at h
      rcases ih h with ⟨i, h1, h2, h3⟩
      refine ⟨i + 1, digitWindowAt_cons.mpr h1, ?_, by simpa using h3⟩
      intro j hj
      cases j with
      | zero => exact fiveDigitsHere_eq_none.mp hfd
      | succ j' => exact fun hw => h2 j' (by omega) (digitWindowAt_cons.mp hw)

/-- C1, counterexample: on `"123456"` the input's only maximal digit run has
six digits, so no run of exactly five decimal digits exists; the claim then
demands the fallback `"00000"`, but `normalize_zip_code` returns `"12345"`,
the first five consecutive digits. -/
theorem C1_first_exact_run_cex :
    digitRuns "123456".data = ["123456".data] ∧
    normalize_zip_code "123456".data = "12345".data ∧
    "12345".data ≠ "00000".data := by
  refine ⟨by decide, by decide, by decide⟩

/-- C1, amended: for every string input, `normalize_zip_code` is total and
returns the five digits starting at the leftmost position where five
consecutive decimal digits occur (even when that window sits inside a longer
digit run); when no such window exists anywhere (including the empty string),
it returns the fixed fallback key `"00000"`. -/
theorem C1_zip_normalizer_amended (s : Str) :
    ((∀ i, ¬ digitWindowAt s i) → normalize_zip_code s = "00000".data) ∧
    (∀ i, digitWindowAt s i → (∀ j, j < i → ¬ digitWindowAt s j) →
      normalize_zip_code s = (s.drop i).take 5) := by
  constructor
  · intro h
    unfold normalize_zip_code
    by_cases hnil : s = []
    · rw [if_pos hnil]
    · rw [if_neg hnil, searchFiveDigits_eq_none.mpr h]
  · intro i hi hmin
    have hnil : s ≠ [] := by
      intro he
      rcases hi with ⟨h1, _⟩
      rw [he] at h1
      simp at h1
    unfold normalize_zip_code
    rw [if_neg hnil]
    cases hs : searchFiveDigits s with
    | none => exact absurd hi (searchFiveDigits_eq_none.mp hs i)
    | some w =>
      rcases searchFiveDigits_eq_some hs with ⟨i', hi', hmin', hw⟩
      have : i = i' := by
        rcases Nat.lt_trichotomy i i' with h | h | h
        · exact absurd hi (hmin' i h)
        · exact h
        · exact absurd hi' (hmin i' h)
      rw [hw, this]

/-- C1, witness for the amended theorem at the input `"a12345"`. -/
theorem C1_zip_normalizer_amended_witness :
    normalize_zip_code "a12345".data = (("a12345".data.drop 1).take 5) :=
  (C1_zip_normalizer_amended "a12345".data).2 1 (by decide) (by decide)

/-! ## Claim C6: the tabular scenario -/

/-- C6: a tabular row `organization=N/A, first=John, middle=N/M/N, last=Smith,
zip=90210, zip4=1234` yields exactly the record
`{"name": "John Smith", "zip": "90210-1234"}`: the sentinel organization is
ignored, the sentinel middle name is omitted, and zip and zip4 are joined
with a hyphen. -/
theorem C6_tsv_scenario :
    parse_tsv_file
      ["organization\tfirst\tmiddle\tlast\tzip\tzip4".data,
       "N/A\tJohn\tN/M/N\tSmith\t90210\t1234".data]
    = some [[("name", "John Smith".data), ("zip", "90210-1234".data)]] := by
  decide

/-! ## Claim C10: stripping of data lines in the tabular parser -/

/-- C10: every data line is stripped of leading and trailing whitespace (tabs
included) before being split on tabs and mapped positionally to the header,
so a row is parsed identically with a tab prepended or appended; in the
concrete instance, a row `"\tAcme\tCA"` under header
`organization, city, state` loses its empty first column and its values are
assigned to the earlier headers `organization` and `city`. -/
theorem C10_tsv_strip_shift :
    (∀ header line, tsvRow header ('\t' :: line) = tsvRow header line) ∧
    (∀ header line, tsvRow header (line ++ ['\t']) = tsvRow header line) ∧
    tsvRow (splitOnC '\t' "organization\tcity\tstate".data) "\tAcme\tCA".data
      = some [("organization", "Acme".data), ("city", "CA".data)] := by
  refine ⟨?_, ?_, by decide⟩
  · intro header line
    have h : strip ('\t' :: line) = strip line := strip_cons_ws (by decide)
    unfold tsvRow
    rw [h]
  · intro header line
    have h : strip (line ++ ['\t']) = strip line := strip_concat_ws (by decide)
    unfold tsvRow
    rw [h]

/-! ## Record-shape lemmas for the three parsers -/

theorem hasKey_append {a b : Record} {k : String} :
    hasKey (a ++ b) k = (hasKey a k || hasKey b k) := List.any_append

theorem hasKey_cons {kv : String × Str} {r : Record} {k : String} :
    hasKey (kv :: r) k = (decide (kv.1 = k) || hasKey r k) := rfl

theorem hasKey_xmlField_ne {k k' : String} {v : Option (Option Str)}
    (h : ¬ k' = k) : hasKey (xmlField k' v) k = false := by
  unfold xmlField hasKey
  cases xmlText v <;> simp [h]

theorem hasKey_xmlRest_name {r : XmlRecord} : hasKey (xmlRest r) "name" = false := by
  unfold xmlRest
  simp [hasKey_append, hasKey_xmlField_ne (by decide : ¬ "street" = "name"),
    hasKey_xmlField_ne (by decide : ¬ "city" = "name"),
    hasKey_xmlField_ne (by decide : ¬ "county" = "name"),
    hasKey_xmlField_ne (by decide : ¬ "state" = "name"),
    hasKey_xmlField_ne (by decide : ¬ "zip" = "name")]

theorem hasKey_xmlRest_org {r : XmlRecord} :
    hasKey (xmlRest r) "organization" = false := by
  unfold xmlRest
  simp [hasKey_append, hasKey_xmlField_ne (by decide : ¬ "street" = "organization"),
    hasKey_xmlField_ne (by decide : ¬ "city" = "organization"),
    hasKey_xmlField_ne (by decide : ¬ "county" = "organization"),
    hasKey_xmlField_ne (by decide : ¬ "state" = "organization"),
    hasKey_xmlField_ne (by decide : ¬ "zip" = "organization")]

theorem hasKey_tsvOpt_ne {k k' : String} {v : Option Str}
    (h : ¬ k' = k) : hasKey (tsvOpt k' v) k = false := by
  unfold tsvOpt hasKey
  cases v <;> simp [h]

theorem hasKey_tsvZip_ne {header fields : List Str} {k : String}
    (h : ¬ "zip" = k) : hasKey (tsvZip header fields) k = false := by
  unfold tsvZip hasKey
  cases tsvVal header fields "zip".data with
  | none => simp
  | some z => cases tsvVal header fields "zip4".data <;> simp [h]

/-- The non-identity tail of a tabular record. -/
def tsvTail (header fields : List Str) : Record :=
  tsvOpt "street" (tsvVal header fields "address".data)
    ++ tsvOpt "city" (tsvVal header fields "city".data)
    ++ tsvOpt "county" (tsvVal header fields "county".data)
    ++ tsvOpt "state" (tsvVal header fields "state".data)
    ++ tsvZip header fields

theorem buildAddr_eq {header fields : List Str} :
    buildAddr header fields = tsvIdentity header fields ++ tsvTail header fields := by
  unfold buildAddr tsvTail
  simp [List.append_assoc]

theorem hasKey_tsvTail_name {header fields : List Str} :
    hasKey (tsvTail header fields) "name" = false := by
  unfold tsvTail
  simp [hasKey_append, hasKey_tsvOpt_ne (by decide : ¬ "street" = "name"),
    hasKey_tsvOpt_ne (by decide : ¬ "city" = "name"),
    hasKey_tsvOpt_ne (by decide : ¬ "county" = "name"),
    hasKey_tsvOpt_ne (by decide : ¬ "state" = "name"),
    hasKey_tsvZip_ne (by decide : ¬ "zip" = "name")]

theorem hasKey_tsvTail_org {header fields : List Str} :
    hasKey (tsvTail header fields) "organization" = false := by
  unfold tsvTail
  simp [hasKey_append, hasKey_tsvOpt_ne (by decide : ¬ "street" = "organization"),
    hasKey_tsvOpt_ne (by decide : ¬ "city" = "organization"),
    hasKey_tsvOpt_ne (by decide : ¬ "county" = "organization"),
    hasKey_tsvOpt_ne (by decide : ¬ "state" = "organization"),
    hasKey_tsvZip_ne (by decide : ¬ "zip" = "organization")]

theorem tsvIdentity_not_both {header fields : List Str} :
    ¬(hasKey (tsvIdentity header fields) "name" = true ∧
      hasKey (tsvIdentity header fields) "organization" = true) := by
  unfold tsvIdentity
  cases tsvVal header fields "organization".data with
  | some v => simp [hasKey]
  | none =>
    cases colGet header fields "first".data with
    | none => simp [hasKey]
    | some f =>
      cases colGet header fields "last".data with
      | none => simp [hasKey]
      | some la => simp [hasKey]

theorem buildAddr_not_both {header fields : List Str} :
    ¬(hasKey (buildAddr header fields) "name" = true ∧
      hasKey (buildAddr header fields) "organization" = true) := by
  rw [buildAddr_eq]
  simp only [hasKey_append, hasKey_tsvTail_name, hasKey_tsvTail_org,
    Bool.or_false]
  exact tsvIdentity_not_both

theorem hasKey_locFields_ne {l : Str} {k : String}
    (h1 : ¬ "city" = k) (h2 : ¬ "county" = k) (h3 : ¬ "state" = k)
    (h4 : ¬ "zip" = k) : hasKey (locFields l) k = false := by
  unfold locFields hasKey
  cases hs : locSearch l with
  | none => simp
  | some g =>
    rcases g with ⟨ci, co, st, zi⟩
    cases co <;> simp [h1, h2, h3, h4]

theorem hasKey_txtStreet_ne {ls : List Str} {k : String}
    (h : ¬ "street" = k) : hasKey (txtStreet ls) k = false := by
  unfold txtStreet hasKey
  by_cases h2 : 2 ≤ ls.length <;> simp [h2, h]

theorem hasKey_txtLoc_ne {ls : List Str} {k : String}
    (h1 : ¬ "city" = k) (h2 : ¬ "county" = k) (h3 : ¬ "state" = k)
    (h4 : ¬ "zip" = k) : hasKey (txtLoc ls) k = false := by
  unfold txtLoc
  by_cases h3' : 3 ≤ ls.length
  · rw [if_pos h3']; exact hasKey_locFields_ne h1 h2 h3 h4
  · rw [if_neg h3']; rfl

theorem txtChunk_not_both {chunk : Str} {r : Record}
    (h : txtChunk chunk = some r) :
    ¬(hasKey r "name" = true ∧ hasKey r "organization" = true) := by
  unfold txtChunk at h
  by_cases hb : strip chunk = []
  · rw [if_pos hb] at h; cases h
  · rw [if_neg hb] at h
    cases hls : (splitOnC '\n' (strip chunk)).map strip with
    | nil => rw [hls] at h; cases h
    | cons l1 rest =>
      rw [hls] at h
      simp only [Option.some.injEq] at h
      subst h
      simp only [hasKey_append,
        hasKey_txtStreet_ne (by decide : ¬ "street" = "name"),
        hasKey_txtStreet_ne (by decide : ¬ "street" = "organization"),
        hasKey_txtLoc_ne (by decide : ¬ "city" = "name") (by decide) (by decide)
          (by decide),
        hasKey_txtLoc_ne (by decide : ¬ "city" = "organization") (by decide)
          (by decide) (by decide), Bool.or_false]
      unfold txtIdentity
      by_cases hm : hasOrgMarker l1 = true
      · rw [if_pos hm]; simp [hasKey]
      · rw [if_neg hm]; simp [hasKey]

theorem tsvKeep_some_elim {addr r : Record} (h : tsvKeep addr = some r) :
    r = addr := by
  unfold tsvKeep at h
  split at h
  · injection h with h; exact h.symm
  · cases h

theorem tsvRow_some_elim {header : List Str} {line : Str} {r : Record}
    (h : tsvRow header line = some r) :
    strip line ≠ [] ∧ r = buildAddr header (splitOnC '\t' (strip line)) := by
  unfold tsvRow at h
  by_cases hb : strip line = []
  · rw [if_pos hb] at h; cases h
  · rw [if_neg hb] at h
    exact ⟨hb, tsvKeep_some_elim h⟩

/-! ## Claim C3: mutual exclusion of the identity fields -/

/-- C3: no record emitted by any of the three parsers ever contains both the
`name` key and the `organization` key, for every input. -/
theorem C3_identity_mutual_exclusion :
    (∀ recs : List XmlRecord, ∀ r ∈ parse_xml_file recs,
      ¬(hasKey r "name" = true ∧ hasKey r "organization" = true)) ∧
    (∀ lines : List Str, ∀ rs : List Record, parse_tsv_file lines = some rs →
      ∀ r ∈ rs, ¬(hasKey r "name" = true ∧ hasKey r "organization" = true)) ∧
    (∀ content : Str, ∀ r ∈ parse_txt_file content,
      ¬(hasKey r "name" = true ∧ hasKey r "organization" = true)) := by
  refine ⟨?_, ?_, ?_⟩
  · intro recs r hr
    unfold parse_xml_file at hr
    rcases List.mem_filterMap.mp hr with ⟨x, _, hx⟩
    unfold parseXmlRecord at hx
    cases hn : xmlText x.name with
    | some t =>
      simp only [hn] at hx
      injection hx with hx
      subst hx
      rintro ⟨-, h2⟩
      rw [hasKey_cons, hasKey_xmlRest_org] at h2
      simp at h2
    | none =>
      cases ho : xmlText x.organization with
      | some t =>
        simp only [hn, ho] at hx
        injection hx with hx
        subst hx
        rintro ⟨h1, -⟩
        rw [hasKey_cons, hasKey_xmlRest_name] at h1
        simp at h1
      | none =>
        rw [hn, ho] at hx
        exact Option.noConfusion hx
  · intro lines rs h r hr
    cases lines with
    | nil => cases h
    | cons l0 rest =>
      unfold parse_tsv_file at h
      injection h with h
      subst h
      rcases List.mem_filterMap.mp hr with ⟨line, _, hline⟩
      rcases tsvRow_some_elim hline with ⟨-, hr'⟩
      subst hr'
      exact buildAddr_not_both
  · intro content r hr
    unfold parse_txt_file at hr
    rcases List.mem_filterMap.mp hr with ⟨c, _, hc⟩
    exact txtChunk_not_both hc

/-- C3, witness: the record produced by the tabular scenario row carries no
`organization` key alongside its `name` key. -/
theorem C3_identity_mutual_exclusion_witness :
    ¬(hasKey [("name", "John Smith".data), ("zip", "90210-1234".data)] "name" = true ∧
      hasKey [("name", "John Smith".data), ("zip", "90210-1234".data)] "organization" = true) :=
  C3_identity_mutual_exclusion.2.1
    ["organization\tfirst\tmiddle\tlast\tzip\tzip4".data,
     "N/A\tJohn\tN/M/N\tSmith\t90210\t1234".data]
    [[("name", "John Smith".data), ("zip", "90210-1234".data)]]
    (by decide) _ (by decide)

/-! ## Claim C4: blank-value analysis of markup and tabular fields -/

theorem xmlField_stripped {k : String} {v : Option (Option Str)} :
    ∀ kv ∈ xmlField k v, strip kv.2 = kv.2 := by
  unfold xmlField
  cases xmlText v with
  | none => intro kv hkv; simp at hkv
  | some t =>
    intro kv hkv
    simp only [List.mem_singleton] at hkv
    subst hkv
    exact strip_idem

theorem xmlRest_stripped {x : XmlRecord} :
    ∀ kv ∈ xmlRest x, strip kv.2 = kv.2 := by
  unfold xmlRest
  intro kv hkv
  rcases List.mem_append.mp hkv with h | h5
  rcases List.mem_append.mp h with h | h4
  rcases List.mem_append.mp h with h | h3
  rcases List.mem_append.mp h with h1 | h2
  · exact xmlField_stripped kv h1
  · exact xmlField_stripped kv h2
  · exact xmlField_stripped kv h3
  · exact xmlField_stripped kv h4
  · exact xmlField_stripped kv h5

theorem assocRight_mem {k v : Str} {l : List (Str × Str)}
    (h : assocRight k l = some v) : ∃ kv ∈ l, kv.2 = v := by
  induction l with
  | nil => cases h
  | cons kv rest ih =>
    unfold assocRight at h
    split at h
    · injection h with h
      exact ⟨kv, List.mem_cons_self _ _, h⟩
    · rcases ih h with ⟨kv', hmem, hv⟩
      exact ⟨kv', List.mem_cons_of_mem _ hmem, hv⟩

theorem colGet_stripped {header fields : List Str} {k v : Str}
    (h : colGet header fields k = some v) : strip v = v := by
  unfold colGet at h
  rcases assocRight_mem h with ⟨kv, hmem, hv⟩
  rw [List.mem_reverse] at hmem
  have h2 := (List.of_mem_zip hmem).2
  rcases List.mem_map.mp h2 with ⟨raw, _, hr⟩
  rw [← hv, ← hr]
  exact strip_idem

theorem tsvVal_some_elim {header fields : List Str} {k v : Str}
    (h : tsvVal header fields k = some v) :
    v ≠ [] ∧ strip v = v := by
  unfold tsvVal at h
  cases hc : colGet header fields k with
  | none => rw [hc] at h; cases h
  | some v0 =>
    rw [hc] at h
    have h' : (if (decide (v0 ≠ []) && decide (v0 ≠ "N/A".data)) = true
        then some v0 else none) = some v := h
    by_cases hcond : (decide (v0 ≠ []) && decide (v0 ≠ "N/A".data)) = true
    · rw [if_pos hcond] at h'
      injection h' with h'
      subst h'
      simp only [Bool.and_eq_true, decide_eq_true_eq, ne_eq] at hcond
      exact ⟨hcond.1, colGet_stripped hc⟩
    · rw [if_neg hcond] at h'
      cases h'

theorem stripped_nonempty_nonblank {v : Str} (h1 : v ≠ []) (h2 : strip v = v) :
    ¬ strip v = [] := by
  rw [h2]; exact h1

/-- C4, counterexample: a markup record whose `street` element has the
non-empty but whitespace-only text `" "` passes the truthiness guard, and the
parser stores the stripped value, which is the empty string: the emitted
record contains a blank `street` field. -/
theorem C4_blank_field_cex :
    parse_xml_file
        [⟨some (some "Jane".data), none, some (some [' ']), none, none, none, none⟩]
      = [[("name", "Jane".data), ("street", [])]] ∧
    ("street", ([] : Str)) ∈
      (parse_xml_file
        [⟨some (some "Jane".data), none, some (some [' ']), none, none, none,
          none⟩]).headD [] ∧
    (([] : Str).any (fun c => !pySpace c)) = false := by
  refine ⟨by decide, by decide, by decide⟩

/-- C4, amended: every field value of a markup record is the trimmed element
text (trimming it again changes nothing), but it can be the empty string when
the element text is non-empty whitespace; every field of a tabular record
other than a composed `name` is non-blank (the `name` value, a space-join of
the `first`/`middle`/`last` columns, can be blank when those columns are
empty). -/
theorem C4_field_values_amended :
    (∀ recs : List XmlRecord, ∀ r ∈ parse_xml_file recs, ∀ kv ∈ r,
      strip kv.2 = kv.2) ∧
    (∀ lines : List Str, ∀ rs : List Record, parse_tsv_file lines = some rs →
      ∀ r ∈ rs, ∀ kv ∈ r, ¬ kv.1 = "name" → ¬ strip kv.2 = []) := by
  constructor
  · intro recs r hr kv hkv
    unfold parse_xml_file at hr
    rcases List.mem_filterMap.mp hr with ⟨x, _, hx⟩
    unfold parseXmlRecord at hx
    cases hn : xmlText x.name with
    | some t =>
      simp only [hn] at hx
      injection hx with hx
      subst hx
      rcases List.mem_cons.mp hkv with h | h
      · subst h; exact strip_idem
      · exact xmlRest_stripped kv h
    | none =>
      cases ho : xmlText x.organization with
      | some t =>
        simp only [hn, ho] at hx
        injection hx with hx
        subst hx
        rcases List.mem_cons.mp hkv with h | h
        · subst h; exact strip_idem
        · exact xmlRest_stripped kv h
      | none =>
        rw [hn, ho] at hx
        exact Option.noConfusion hx
  · intro lines rs h r hr kv hkv hname
    cases lines with
    | nil => cases h
    | cons l0 rest =>
      unfold parse_tsv_file at h
      injection h with h
      subst h
      rcases List.mem_filterMap.mp hr with ⟨line, _, hline⟩
      rcases tsvRow_some_elim hline with ⟨-, hr'⟩
      subst hr'
      rw [buildAddr_eq] at hkv
      rcases List.mem_append.mp hkv with hid | htl
      · -- identity part: organization (stripped, non-empty) or name (excluded)
        unfold tsvIdentity at hid
        cases horg : tsvVal (splitOnC '\t' (strip l0))
            (splitOnC '\t' (strip line)) "organization".data with
        | some v =>
          rw [horg] at hid
          simp only [List.mem_singleton] at hid
          subst hid
          rcases tsvVal_some_elim horg with ⟨h1, h2⟩
          exact stripped_nonempty_nonblank h1 h2
        | none =>
          rw [horg] at hid
          cases hf : colGet (splitOnC '\t' (strip l0))
              (splitOnC '\t' (strip line)) "first".data with
          | none => rw [hf] at hid; simp at hid
          | some f =>
            cases hl : colGet (splitOnC '\t' (strip l0))
                (splitOnC '\t' (strip line)) "last".data with
            | none => rw [hf, hl] at hid; simp at hid
            | some la =>
              rw [hf, hl] at hid
              simp only [List.mem_singleton] at hid
              subst hid
              simp at hname
      · -- non-identity tail: all values stripped and non-empty, or a
        -- hyphen-joined zip
        unfold tsvTail at htl
        have hOpt : ∀ (k : String) (kk : Str) kv,
            kv ∈ tsvOpt k (tsvVal (splitOnC '\t' (strip l0))
              (splitOnC '\t' (strip line)) kk) → ¬ strip kv.2 = [] := by
          intro k kk kv' hkv'
          cases hv : tsvVal (splitOnC '\t' (strip l0))
              (splitOnC '\t' (strip line)) kk with
          | none => rw [hv] at hkv'; simp [tsvOpt] at hkv'
          | some v =>
            rw [hv] at hkv'
            simp only [tsvOpt, List.mem_singleton] at hkv'
            subst hkv'
            rcases tsvVal_some_elim hv with ⟨h1, h2⟩
            exact stripped_nonempty_nonblank h1 h2
        rcases List.mem_append.mp htl with h | h5
        rcases List.mem_append.mp h with h | h4
        rcases List.mem_append.mp h with h | h3
        rcases List.mem_append.mp h with h1 | h2
        · exact hOpt _ _ _ h1
        · exact hOpt _ _ _ h2
        · exact hOpt _ _ _ h3
        · exact hOpt _ _ _ h4
        · -- the zip field
          unfold tsvZip at h5
          cases hz : tsvVal (splitOnC '\t' (strip l0))
              (splitOnC '\t' (strip line)) "zip".data with
          | none => rw [hz] at h5; simp at h5
          | some z =>
            rw [hz] at h5
            cases hz4 : tsvVal (splitOnC '\t' (strip l0))
                (splitOnC '\t' (strip line)) "zip4".data with
            | none =>
              rw [hz4] at h5
              simp only [List.mem_singleton] at h5
              subst h5
              rcases tsvVal_some_elim hz with ⟨h1, h2⟩
              exact stripped_nonempty_nonblank h1 h2
            | some z4 =>
              rw [hz4] at h5
              simp only [List.mem_singleton] at h5
              subst h5
              intro hcon
              rw [strip_eq_nil_iff] at hcon
              unfold allWs at hcon
              rw [List.all_eq_true] at hcon
              have := hcon '-' (by
                rw [List.mem_append]
                right
                exact List.mem_cons_self _ _)
              simp [pySpace] at this

/-- C4, witness for the amended theorem: the scenario tabular record's `zip`
value is non-blank. -/
theorem C4_field_values_amended_witness :
    ¬ strip ("90210-1234".data) = [] :=
  C4_field_values_amended.2
    ["organization\tfirst\tmiddle\tlast\tzip\tzip4".data,
     "N/A\tJohn\tN/M/N\tSmith\t90210\t1234".data]
    [[("name", "John Smith".data), ("zip", "90210-1234".data)]]
    (by decide) [("name", "John Smith".data), ("zip", "90210-1234".data)]
    (by decide) ("zip", "90210-1234".data) (by decide) (by decide)

/-! ## Claim C5: the tabular acceptance rule -/

theorem assocRight_mem_key {k v : Str} {l : List (Str × Str)}
    (h : assocRight k l = some v) : ∃ kv ∈ l, kv.1 = k ∧ kv.2 = v := by
  induction l with
  | nil => cases h
  | cons kv rest ih =>
    unfold assocRight at h
    split at h
    · injection h with h
      rename_i hk
      exact ⟨kv, List.mem_cons_self _ _, hk, h⟩
    · rcases ih h with ⟨kv', hmem, hk, hv⟩
      exact ⟨kv', List.mem_cons_of_mem _ hmem, hk, hv⟩

theorem colGet_blank_row {header : List Str} {k v : Str}
    (h : colGet header [[]] k = some v) :
    v = [] ∧ ∃ h0 ∈ header, h0 = k := by
  unfold colGet at h
  rcases assocRight_mem_key h with ⟨kv, hmem, hk, hv⟩
  rw [List.mem_reverse] at hmem
  have h1 := (List.of_mem_zip hmem).1
  have h2 := (List.of_mem_zip hmem).2
  simp only [List.map, strip] at h2
  constructor
  · rw [← hv]
    have : kv.2 ∈ ([[]] : List Str) := by simpa using h2
    simpa using this
  · exact ⟨kv.1, h1, hk⟩

theorem tsvIdentity_blank_row {header : List Str} :
    tsvIdentity header [[]] = [] := by
  unfold tsvIdentity
  cases ho : tsvVal header [[]] "organization".data with
  | some v =>
    exfalso
    rcases tsvVal_some_elim ho with ⟨h1, -⟩
    unfold tsvVal at ho
    cases hc : colGet header [[]] "organization".data with
    | none => rw [hc] at ho; cases ho
    | some v0 =>
      rcases colGet_blank_row hc with ⟨hv0, -⟩
      subst hv0
      rw [hc] at ho
      simp at ho
  | none =>
    cases hf : colGet header [[]] "first".data with
    | none => rfl
    | some f =>
      cases hl : colGet header [[]] "last".data with
      | none => rfl
      | some la =>
        exfalso
        rcases colGet_blank_row hf with ⟨-, h0, hmem0, he0⟩
        rcases colGet_blank_row hl with ⟨-, h1, hmem1, he1⟩
        -- both lookups can only hit the single assigned column, the first
        -- header cell, which cannot be both "first" and "last"
        cases header with
        | nil => simp [colGet, assocRight] at hf
        | cons hh ht =>
          have hz : (hh :: ht).zip ([[]].map strip) = [(hh, [])] := by
            simp [strip]
          unfold colGet at hf hl
          rw [hz] at hf hl
          simp only [List.reverse_singleton] at hf hl
          unfold assocRight at hf hl
          split at hf
          · split at hl
            · rename_i hkf hkl
              have e1 : hh = "first".data := hkf
              have e2 : hh = "last".data := hkl
              rw [e1] at e2
              exact absurd e2 (by decide)
            · cases hl
          · cases hf

theorem tsvIdentity_keys {header fields : List Str} :
    ∀ kv ∈ tsvIdentity header fields,
      kv.1 = "name" ∨ kv.1 = "organization" := by
  unfold tsvIdentity
  cases tsvVal header fields "organization".data with
  | some v => intro kv hkv; simp at hkv; subst hkv; right; rfl
  | none =>
    cases colGet header fields "first".data with
    | none => intro kv hkv; simp at hkv
    | some f =>
      cases colGet header fields "last".data with
      | none => intro kv hkv; simp at hkv
      | some la => intro kv hkv; simp at hkv; subst hkv; left; rfl

theorem tsvIdentity_short {header fields : List Str} :
    (tsvIdentity header fields).length ≤ 1 := by
  unfold tsvIdentity
  cases tsvVal header fields "organization".data with
  | some v => simp
  | none =>
    cases colGet header fields "first".data with
    | none => simp
    | some f =>
      cases colGet header fields "last".data with
      | none => simp
      | some la => simp

theorem tsvTail_keys {header fields : List Str} :
    ∀ kv ∈ tsvTail header fields,
      ¬ kv.1 = "name" ∧ ¬ kv.1 = "organization" := by
  intro kv hkv
  constructor
  · have := @hasKey_tsvTail_name header fields
    unfold hasKey at this
    simpa using List.any_eq_false.mp this kv hkv
  · have := @hasKey_tsvTail_org header fields
    unfold hasKey at this
    simpa using List.any_eq_false.mp this kv hkv

theorem tsvKeep_some_cond {addr r : Record} (h : tsvKeep addr = some r) :
    ((hasKey addr "name" || hasKey addr "organization")
      && decide (addr.length > 1)) = true := by
  unfold tsvKeep at h
  split at h
  · assumption
  · cases h

theorem tsvKeep_of_cond {addr : Record}
    (h : ((hasKey addr "name" || hasKey addr "organization")
      && decide (addr.length > 1)) = true) : tsvKeep addr = some addr := by
  unfold tsvKeep
  rw [if_pos h]

/-- C5: a tabular data row is emitted if and only if the record built from it
has an identity field and at least one further non-identity field; in
particular a file whose single data row sets only `first` and `last` produces
no record. -/
theorem C5_tsv_acceptance :
    (∀ header line r, tsvRow header line = some r →
      (hasKey r "name" = true ∨ hasKey r "organization" = true) ∧
      ∃ kv ∈ r, ¬ kv.1 = "name" ∧ ¬ kv.1 = "organization") ∧
    (∀ header line,
      (hasKey (buildAddr header (splitOnC '\t' (strip line))) "name" = true ∨
       hasKey (buildAddr header (splitOnC '\t' (strip line))) "organization" = true) →
      (∃ kv ∈ buildAddr header (splitOnC '\t' (strip line)),
        ¬ kv.1 = "name" ∧ ¬ kv.1 = "organization") →
      tsvRow header line = some (buildAddr header (splitOnC '\t' (strip line)))) ∧
    parse_tsv_file ["first\tlast".data, "John\tSmith".data] = some [] := by
  refine ⟨?_, ?_, by decide⟩
  · intro header line r h
    rcases tsvRow_some_elim h with ⟨hb, hr⟩
    unfold tsvRow at h
    rw [if_neg hb] at h
    have hcond := tsvKeep_some_cond h
    rw [← hr] at hcond
    simp only [Bool.and_eq_true, Bool.or_eq_true, decide_eq_true_eq] at hcond
    refine ⟨hcond.1, ?_⟩
    -- the record is longer than the identity part, so the tail is non-empty
    subst hr
    rw [buildAddr_eq] at hcond ⊢
    cases htl : tsvTail header (splitOnC '\t' (strip line)) with
    | nil =>
      exfalso
      rw [htl, List.append_nil] at hcond
      have := @tsvIdentity_short header (splitOnC '\t' (strip line))
      omega
    | cons kv0 tl =>
      refine ⟨kv0, ?_, ?_⟩
      · exact List.mem_append_right _ (List.mem_cons_self _ _)
      · exact tsvTail_keys kv0 (by rw [htl]; exact List.mem_cons_self _ _)
  · intro header line hid hex
    by_cases hb : strip line = []
    · exfalso
      rw [hb] at hid
      rw [buildAddr_eq] at hid
      rcases hid with hid | hid
      all_goals {
        simp only [hasKey_append, Bool.or_eq_true] at hid
        rcases hid with hid | hid
        · rw [show splitOnC '\t' [] = [[]] from rfl, tsvIdentity_blank_row] at hid
          simp [hasKey] at hid
        · first
          | rw [hasKey_tsvTail_name] at hid; cases hid
          | rw [hasKey_tsvTail_org] at hid; cases hid
      }
    · unfold tsvRow
      rw [if_neg hb]
      apply tsvKeep_of_cond
      simp only [Bool.and_eq_true, Bool.or_eq_true, decide_eq_true_eq]
      constructor
      · rcases hid with hid | hid
        · left; exact hid
        · right; exact hid
      · -- identity present and a non-identity field exists, so length ≥ 2
        rcases hex with ⟨kv, hkv, hk1, hk2⟩
        rw [buildAddr_eq] at hkv hid ⊢
        have hkvtail : kv ∈ tsvTail header (splitOnC '\t' (strip line)) := by
          rcases List.mem_append.mp hkv with h | h
          · rcases tsvIdentity_keys kv h with he | he
            · exact absurd he hk1
            · exact absurd he hk2
          · exact h
        have hidne : tsvIdentity header (splitOnC '\t' (strip line)) ≠ [] := by
          intro he
          rcases hid with hid | hid
          all_goals {
            simp only [hasKey_append, Bool.or_eq_true] at hid
            rcases hid with hid | hid
            · rw [he] at hid; simp [hasKey] at hid
            · first
              | rw [hasKey_tsvTail_name] at hid; cases hid
              | rw [hasKey_tsvTail_org] at hid; cases hid
          }
        have h1 : 1 ≤ (tsvIdentity header (splitOnC '\t' (strip line))).length := by
          cases hi : tsvIdentity header (splitOnC '\t' (strip line)) with
          | nil => exact absurd hi hidne
          | cons a b => simp
        have h2 : 1 ≤ (tsvTail header (splitOnC '\t' (strip line))).length := by
          cases ht : tsvTail header (splitOnC '\t' (strip line)) with
          | nil => rw [ht] at hkvtail; simp at hkvtail
          | cons a b => simp
        rw [List.length_append]
        omega

/-- C5, witness: the scenario record of the tabular parser has an identity
field and the non-identity field `zip`. -/
theorem C5_tsv_acceptance_witness :
    (hasKey [("name", "John Smith".data), ("zip", "90210-1234".data)] "name" = true ∨
     hasKey [("name", "John Smith".data), ("zip", "90210-1234".data)] "organization" = true) ∧
    ∃ kv ∈ [("name", "John Smith".data), ("zip", "90210-1234".data)],
      ¬ kv.1 = "name" ∧ ¬ kv.1 = "organization" :=
  C5_tsv_acceptance.1
    (splitOnC '\t' "organization\tfirst\tmiddle\tlast\tzip\tzip4".data)
    "N/A\tJohn\tN/M/N\tSmith\t90210\t1234".data
    [("name", "John Smith".data), ("zip", "90210-1234".data)]
    (by decide)

/-! ## Claim C9: all-or-nothing failure of the driver -/

theorem collect_isSome {files : List InputFile} :
    (collect files).isSome = true ↔ ∀ f ∈ files, (parse_file f).isSome = true := by
  induction files with
  | nil => simp [collect]
  | cons f fs ih =>
    cases hp : parse_file f with
    | none =>
      constructor
      · intro h
        simp [collect, hp] at h
      · intro h
        exfalso
        have := h f (List.mem_cons_self _ _)
        rw [hp] at this
        cases this
    | some rs =>
      constructor
      · intro h
        intro f' hf'
        rcases List.mem_cons.mp hf' with he | hmem
        · subst he; rw [hp]; rfl
        · apply ih.mp _ f' hmem
          simp only [collect, hp] at h
          cases hc : collect fs with
          | none => rw [hc] at h; simp at h
          | some rest => rfl
      · intro h
        simp only [collect, hp]
        cases hc : collect fs with
        | none =>
          exfalso
          have h2 := ih.mpr (fun f' hf' => h f' (List.mem_cons_of_mem _ hf'))
          rw [hc] at h2
          cases h2
        | some rest => rfl

/-- C9: the run succeeds (prints the array and writes `output.json`) exactly
when every input file parses cleanly; any failing file — including one with an
unsupported extension such as `.csv`, or an empty `.tsv` file — makes the
whole run fail with no output. -/
theorem C9_all_or_nothing :
    (∀ files : List InputFile,
      (mainRun files).isSome = true ↔ ∀ f ∈ files, (parse_file f).isSome = true) ∧
    (∀ files : List InputFile, ∀ f ∈ files, parse_file f = none →
      mainRun files = none) ∧
    (∀ raw : Str, ∀ v : Option (List XmlRecord),
      parse_file ⟨"data.csv".data, raw, v⟩ = none) ∧
    (∀ v : Option (List XmlRecord), parse_file ⟨"empty.tsv".data, [], v⟩ = none) ∧
    (∀ raw : Str, parse_file ⟨"bad.xml".data, raw, none⟩ = none) := by
  have hmain : ∀ files : List InputFile,
      (mainRun files).isSome = (collect files).isSome := by
    intro files
    unfold mainRun
    cases collect files <;> rfl
  refine ⟨?_, ?_, ?_, ?_, ?_⟩
  · intro files
    rw [hmain]
    exact collect_isSome
  · intro files f hf hnone
    cases hm : mainRun files with
    | none => rfl
    | some out =>
      exfalso
      have h1 : (mainRun files).isSome = true := by rw [hm]; rfl
      have h2 := (collect_isSome.mp (by rw [← hmain]; exact h1)) f hf
      rw [hnone] at h2
      cases h2
  · intro raw v; rfl
  · intro v; rfl
  · intro raw; rfl

/-- C9, witness: a run over one `.csv` file and one good `.txt` file fails. -/
theorem C9_all_or_nothing_witness :
    mainRun [⟨"data.csv".data, "x".data, none⟩,
             ⟨"a.txt".data, "John\n1 A St".data, none⟩] = none :=
  C9_all_or_nothing.2.1 _ ⟨"data.csv".data, "x".data, none⟩
    (List.mem_cons_self _ _) (C9_all_or_nothing.2.2.1 "x".data none)

/-! ## Claim C2: the driver's sort -/

theorem strLe_refl (s : Str) : strLe s s = true := by
  induction s with
  | nil => rfl
  | cons c rest ih => simp [strLe, ih]

theorem strLe_total (a b : Str) : (strLe a b || strLe b a) = true := by
  induction a generalizing b with
  | nil => simp [strLe]
  | cons x xs ih =>
    cases b with
    | nil => simp [strLe]
    | cons y ys =>
      by_cases h : x.toNat = y.toNat
      · simp [strLe, h, ih ys]
      · rcases Nat.lt_or_ge x.toNat y.toNat with hlt | hge
        · simp [strLe, h, hlt]
        · have hgt : y.toNat < x.toNat := by omega
          have hne : ¬ y.toNat = x.toNat := by omega
          have hnlt : ¬ x.toNat < y.toNat := by omega
          simp [strLe, h, hne, hgt, hnlt]

theorem strLe_trans {a b c : Str} (h1 : strLe a b = true) (h2 : strLe b c = true) :
    strLe a c = true := by
  induction a generalizing b c with
  | nil => cases c <;> rfl
  | cons x xs ih =>
    cases b with
    | nil => cases h1
    | cons y ys =>
      cases c with
      | nil => cases h2
      | cons z zs =>
        simp only [strLe] at h1 h2 ⊢
        by_cases hxy : x.toNat = y.toNat
        · rw [if_pos hxy] at h1
          by_cases hyz : y.toNat = z.toNat
          · rw [if_pos hyz] at h2
            rw [if_pos (hxy.trans hyz)]
            exact ih h1 h2
          · rw [if_neg hyz] at h2
            have hlt : y.toNat < z.toNat := of_decide_eq_true h2
            have hxz : ¬ x.toNat = z.toNat := by omega
            rw [if_neg hxz]
            exact decide_eq_true (by omega)
        · rw [if_neg hxy] at h1
          have hlt1 : x.toNat < y.toNat := of_decide_eq_true h1
          by_cases hyz : y.toNat = z.toNat
          · have hxz : ¬ x.toNat = z.toNat := by omega
            rw [if_neg hxz]
            exact decide_eq_true (by omega)
          · rw [if_neg hyz] at h2
            have hlt2 : y.toNat < z.toNat := of_decide_eq_true h2
            have hxz : ¬ x.toNat = z.toNat := by omega
            rw [if_neg hxz]
            exact decide_eq_true (by omega)

theorem recLe_trans : ∀ (a b c : Record),
    recLe a b = true → recLe b c = true → recLe a c = true :=
  fun _ _ _ h1 h2 => strLe_trans h1 h2

theorem recLe_total : ∀ (a b : Record), (recLe a b || recLe b a) = true :=
  fun a b => strLe_total (sortKey a) (sortKey b)

/-- C2: on a successful run, the driver's output is a permutation of the
concatenated record list, is monotonic non-decreasing on the normalized ZIP
key, and is stable: for every key value, the records carrying it appear in
the output exactly as they appear in the concatenation. -/
theorem C2_driver_sort (files : List InputFile) (rs out : List Record)
    (hc : collect files = some rs) (hm : mainRun files = some out) :
    out.Perm rs ∧
    out.Pairwise (fun a b => strLe (sortKey a) (sortKey b) = true) ∧
    ∀ k : Str, out.filter (fun r => decide (sortKey r = k))
      = rs.filter (fun r => decide (sortKey r = k)) := by
  unfold mainRun at hm
  rw [hc] at hm
  simp only [Option.map_some'] at hm
  injection hm with hm
  subst hm
  unfold sortRecords
  refine ⟨List.mergeSort_perm rs recLe, ?_, ?_⟩
  · have := List.sorted_mergeSort recLe_trans recLe_total rs
    exact this
  · intro k
    set p : Record → Bool := fun r => decide (sortKey r = k) with hp
    have hsub : List.Sublist (rs.filter p) rs := List.filter_sublist rs
    have hkey : ∀ a ∈ rs.filter p, sortKey a = k := by
      intro a ha
      have := (List.mem_filter.mp ha).2
      rw [hp] at this
      simpa using this
    have hpw : (rs.filter p).Pairwise (fun a b => recLe a b) := by
      apply List.pairwise_of_forall_mem_list
      intro a ha b hb
      show recLe a b = true
      unfold recLe
      rw [hkey a ha, hkey b hb]
      exact strLe_refl k
    have hsub2 : List.Sublist (rs.filter p) (rs.mergeSort recLe) :=
      List.sublist_mergeSort recLe_trans recLe_total hpw hsub
    have hidem : (rs.filter p).filter p = rs.filter p :=
      List.filter_eq_self.mpr (fun a ha => (List.mem_filter.mp ha).2)
    have hsub3 : List.Sublist (rs.filter p) ((rs.mergeSort recLe).filter p) := by
      rw [← hidem]
      exact List.Sublist.filter p hsub2
    have hlen : ((rs.mergeSort recLe).filter p).length = (rs.filter p).length :=
      ((List.mergeSort_perm rs recLe).filter p).length_eq
    exact (List.Sublist.eq_of_length hsub3 hlen.symm).symm

/-- C2, witness: a one-file run with two free-text records whose keys arrive
out of order. -/
theorem C2_driver_sort_witness :
    (sortRecords (parse_txt_file
        "Acme Inc.\n1 A St\nX, IL 22222\n\nJohn\n2 B St\nY, IL 11111".data ++ [])).Perm
      (parse_txt_file
        "Acme Inc.\n1 A St\nX, IL 22222\n\nJohn\n2 B St\nY, IL 11111".data ++ []) ∧
    (sortRecords (parse_txt_file
        "Acme Inc.\n1 A St\nX, IL 22222\n\nJohn\n2 B St\nY, IL 11111".data ++ [])).Pairwise
      (fun a b => strLe (sortKey a) (sortKey b) = true) := by
  have h := C2_driver_sort
    [⟨"a.txt".data,
      "Acme Inc.\n1 A St\nX, IL 22222\n\nJohn\n2 B St\nY, IL 11111".data, none⟩]
    _ _ rfl rfl
  exact ⟨h.1, h.2.1⟩

/-! ## Claim C8: the free-text location pattern -/

theorem recGet_append_of_not {a b : Record} {k : String}
    (h : hasKey a k = false) : recGet k (a ++ b) = recGet k b := by
  induction a with
  | nil => rfl
  | cons kv rest ih =>
    rw [hasKey_cons] at h
    simp only [Bool.or_eq_false_iff, decide_eq_false_iff_not] at h
    rw [List.cons_append]
    rw [show recGet k (kv :: (rest ++ b))
        = if kv.1 = k then some kv.2 else recGet k (rest ++ b) from rfl]
    rw [if_neg h.1]
    exact ih h.2

theorem hasKey_txtIdentity_ne {l1 : Str} {k : String}
    (h1 : ¬ "name" = k) (h2 : ¬ "organization" = k) :
    hasKey (txtIdentity l1) k = false := by
  unfold txtIdentity
  by_cases hm : hasOrgMarker l1 = true
  · rw [if_pos hm]; simp [hasKey, h2]
  · rw [if_neg hm]; simp [hasKey, h1]

/-- C8: for every free-text paragraph with at least three lines, the
city/county/state/zip fields of the emitted record are exactly those
extracted by matching the last line against the location pattern, and none of
them is present when the last line does not match; and the Acme scenario
yields its expected record. -/
theorem C8_txt_location :
    (∀ chunk : Str, ∀ r : Record, txtChunk chunk = some r →
      3 ≤ ((splitOnC '\n' (strip chunk)).map strip).length →
      (∀ g : LocGroups,
        locSearch (((splitOnC '\n' (strip chunk)).map strip).getLastD []) = some g →
        recGet "city" r = some (strip g.city) ∧
        recGet "county" r = Option.map strip g.county ∧
        recGet "state" r = some (strip g.state) ∧
        recGet "zip" r = some (strip g.zip)) ∧
      (locSearch (((splitOnC '\n' (strip chunk)).map strip).getLastD []) = none →
        hasKey r "city" = false ∧ hasKey r "county" = false ∧
        hasKey r "state" = false ∧ hasKey r "zip" = false)) ∧
    parse_txt_file "Acme Inc.\n123 Main St\nSpringfield, IL 62704".data =
      [[("organization", "Acme Inc.".data), ("street", "123 Main St".data),
        ("city", "Springfield".data), ("state", "IL".data),
        ("zip", "62704".data)]] := by
  refine ⟨?_, by decide⟩
  intro chunk r h h3
  unfold txtChunk at h
  by_cases hb : strip chunk = []
  · rw [if_pos hb] at h; cases h
  · rw [if_neg hb] at h
    cases hls : (splitOnC '\n' (strip chunk)).map strip with
    | nil => rw [hls] at h; cases h
    | cons l1 rest =>
      rw [hls] at h
      injection h with h
      subst h
      rw [hls] at h3
      have hstreet : hasKey (txtStreet (l1 :: rest)) "city" = false ∧
          hasKey (txtStreet (l1 :: rest)) "county" = false ∧
          hasKey (txtStreet (l1 :: rest)) "state" = false ∧
          hasKey (txtStreet (l1 :: rest)) "zip" = false :=
        ⟨hasKey_txtStreet_ne (by decide), hasKey_txtStreet_ne (by decide),
         hasKey_txtStreet_ne (by decide), hasKey_txtStreet_ne (by decide)⟩
      have hid : ∀ k : String, ¬ "name" = k → ¬ "organization" = k →
          hasKey (txtIdentity l1) k = false := fun k h1 h2 =>
        hasKey_txtIdentity_ne h1 h2
      have hloc : txtLoc (l1 :: rest) =
          locFields ((l1 :: rest).getLastD []) := by
        unfold txtLoc
        rw [if_pos h3]
      constructor
      · intro g hg
        have hfront : ∀ k : String, ¬ "name" = k → ¬ "organization" = k →
            ¬ "street" = k →
            recGet k (txtIdentity l1 ++ txtStreet (l1 :: rest) ++
              txtLoc (l1 :: rest)) = recGet k (txtLoc (l1 :: rest)) := by
          intro k h1 h2 h4
          rw [List.append_assoc, recGet_append_of_not (hid k h1 h2),
            recGet_append_of_not (hasKey_txtStreet_ne h4)]
        rcases g with ⟨ci, co, st, zi⟩
        refine ⟨?_, ?_, ?_, ?_⟩
        · rw [hfront "city" (by decide) (by decide) (by decide), hloc]
          cases co <;> (unfold locFields; rw [hg]; simp [recGet])
        · rw [hfront "county" (by decide) (by decide) (by decide), hloc]
          cases co <;> (unfold locFields; rw [hg]; simp [recGet])
        · rw [hfront "state" (by decide) (by decide) (by decide), hloc]
          cases co <;> (unfold locFields; rw [hg]; simp [recGet])
        · rw [hfront "zip" (by decide) (by decide) (by decide), hloc]
          cases co <;> (unfold locFields; rw [hg]; simp [recGet])
      · intro hg
        have hlocnil : txtLoc (l1 :: rest) = [] := by
          rw [hloc]
          unfold locFields
          rw [hg]
        rw [hlocnil, List.append_nil]
        refine ⟨?_, ?_, ?_, ?_⟩
        all_goals {
          rw [hasKey_append]
          first
          | rw [hid "city" (by decide) (by decide),
              hasKey_txtStreet_ne (by decide : ¬ "street" = "city")]
          | rw [hid "county" (by decide) (by decide),
              hasKey_txtStreet_ne (by decide : ¬ "street" = "county")]
          | rw [hid "state" (by decide) (by decide),
              hasKey_txtStreet_ne (by decide : ¬ "street" = "state")]
          | rw [hid "zip" (by decide) (by decide),
              hasKey_txtStreet_ne (by decide : ¬ "street" = "zip")]
          rfl
        }

/-- C8, witness: the Acme paragraph, through the general statement. -/
theorem C8_txt_location_witness :
    recGet "city"
        [("organization", "Acme Inc.".data), ("street", "123 Main St".data),
         ("city", "Springfield".data), ("state", "IL".data),
         ("zip", "62704".data)]
      = some (strip "Springfield".data) ∧
    recGet "county"
        [("organization", "Acme Inc.".data), ("street", "123 Main St".data),
         ("city", "Springfield".data), ("state", "IL".data),
         ("zip", "62704".data)]
      = Option.map strip (none : Option Str) ∧
    recGet "state"
        [("organization", "Acme Inc.".data), ("street", "123 Main St".data),
         ("city", "Springfield".data), ("state", "IL".data),
         ("zip", "62704".data)]
      = some (strip "IL".data) ∧
    recGet "zip"
        [("organization", "Acme Inc.".data), ("street", "123 Main St".data),
         ("city", "Springfield".data), ("state", "IL".data),
         ("zip", "62704".data)]
      = some (strip "62704".data) :=
  (C8_txt_location.1 "Acme Inc.\n123 Main St\nSpringfield, IL 62704".data
      [("organization", "Acme Inc.".data), ("street", "123 Main St".data),
       ("city", "Springfield".data), ("state", "IL".data),
       ("zip", "62704".data)]
      (by decide) (by decide)).1
    ⟨"Springfield".data, none, "IL".data, "62704".data⟩ (by decide)

/-! ## Claim C7: one record per non-blank paragraph -/

/-- Number of maximal runs of non-blank lines; `prev` records whether the
previous line was non-blank, so a run is counted exactly at its first line. -/
def nbRunsAux (prev : Bool) : List Str → Nat
  | [] => 0
  | l :: ls =>
    if (strip l).isEmpty then nbRunsAux false ls
    else (if prev then 0 else 1) + nbRunsAux true ls

/-- The number of non-blank paragraphs of a text: the number of maximal runs
of non-blank lines among its newline-separated lines. -/
def paragraphCount (content : Str) : Nat :=
  nbRunsAux false (splitOnC '\n' content)

/-- Predicate for a character other than a newline. -/
def notNL (ch : Char) : Bool := ch != '\n'

/-- Character-level counter of maximal non-blank-line runs: `p` records
whether the previous completed line was non-blank, `c` whether the current
line has seen a non-whitespace character. -/
def runsChar (p c : Bool) : Str → Nat
  | [] => 0
  | ch :: s =>
    if ch = '\n' then runsChar c false s
    else if pySpace ch then runsChar p c s
    else (if !c && !p then 1 else 0) + runsChar p true s

/-- Line-level counter bridging `runsChar` and `nbRunsAux`. -/
def lineCount (p c : Bool) : List Str → Nat
  | [] => 0
  | l :: ls =>
    (if !c && !p && !(allWs l) then 1 else 0)
      + lineCount (c || !(allWs l)) false ls

theorem allWs_cons {ch : Char} {l : Str} :
    allWs (ch :: l) = (pySpace ch && allWs l) := by
  simp [allWs]

theorem runsChar_cons_eq {p c : Bool} {ch : Char} {s : Str} :
    runsChar p c (ch :: s)
      = if ch = '\n' then runsChar c false s
        else if pySpace ch = true then runsChar p c s
        else (if (!c && !p) = true then 1 else 0) + runsChar p true s := by
  conv_lhs => unfold runsChar

theorem runsChar_line {l : Str} (hnl : ∀ ch ∈ l, ch ≠ '\n') :
    ∀ p c (s : Str), runsChar p c (l ++ s)
      = (if (!c && !p && !(allWs l)) = true then 1 else 0)
        + runsChar p (c || !(allWs l)) s := by
  induction l with
  | nil =>
    intro p c s
    simp [allWs]
  | cons a l' ih =>
    intro p c s
    have ha : a ≠ '\n' := hnl a (List.mem_cons_self _ _)
    have hnl' : ∀ ch ∈ l', ch ≠ '\n' := fun ch h => hnl ch (List.mem_cons_of_mem _ h)
    rw [List.cons_append]
    by_cases hws : pySpace a = true
    · rw [runsChar_cons_eq, if_neg ha, if_pos hws]
      rw [ih hnl' p c s, allWs_cons, hws]
      simp
    · rw [runsChar_cons_eq, if_neg ha, if_neg hws]
      rw [ih hnl' p true s, allWs_cons]
      rw [Bool.eq_false_iff.mpr hws]
      simp [Nat.add_assoc]

theorem splitOnC_ne_nil {sep : Char} {s : Str} : splitOnC sep s ≠ [] := by
  cases s with
  | nil => simp [splitOnC]
  | cons c rest =>
    unfold splitOnC
    by_cases h : c = sep <;> simp [h]

theorem splitOnC_cons_eq {sep c : Char} {rest : Str} :
    splitOnC sep (c :: rest)
      = if c = sep then [] :: splitOnC sep rest
        else (c :: (splitOnC sep rest).headD []) :: (splitOnC sep rest).tail := by
  conv_lhs => unfold splitOnC

theorem lineCount_cons_eq {p c : Bool} {l : Str} {ls : List Str} :
    lineCount p c (l :: ls)
      = (if (!c && !p && !(allWs l)) = true then 1 else 0)
        + lineCount (c || !(allWs l)) false ls := by
  conv_lhs => unfold lineCount

theorem splitOnC_no_sep {sep : Char} {s : Str} (h : ∀ ch ∈ s, ch ≠ sep) :
    splitOnC sep s = [s] := by
  induction s with
  | nil => rfl
  | cons c rest ih =>
    have hc : c ≠ sep := h c (List.mem_cons_self _ _)
    have ih' := ih (fun ch hm => h ch (List.mem_cons_of_mem _ hm))
    rw [splitOnC_cons_eq, if_neg hc, ih']
    rfl

theorem splitOnC_append {sep : Char} {l s : Str} (h : ∀ ch ∈ l, ch ≠ sep) :
    splitOnC sep (l ++ sep :: s) = l :: splitOnC sep s := by
  induction l with
  | nil =>
    simp only [List.nil_append]
    rw [splitOnC_cons_eq, if_pos rfl]
  | cons c l' ih =>
    have hc : c ≠ sep := h c (List.mem_cons_self _ _)
    have ih' := ih (fun ch hm => h ch (List.mem_cons_of_mem _ hm))
    rw [List.cons_append, splitOnC_cons_eq, if_neg hc, ih']
    rfl

theorem runsChar_lineCount :
    ∀ (n : Nat) (s : Str), s.length ≤ n → ∀ p c,
      runsChar p c s = lineCount p c (splitOnC '\n' s) := by
  intro n
  induction n with
  | zero =>
    intro s hs p c
    have : s = [] := List.length_eq_zero.mp (Nat.le_zero.mp hs)
    subst this
    simp [runsChar, splitOnC, lineCount, allWs]
  | succ n ih =>
    intro s hs p c
    have hdec := List.takeWhile_append_dropWhile (p := notNL) (l := s)
    have htw : ∀ ch ∈ s.takeWhile notNL, ch ≠ '\n' := by
      intro ch hm
      have := List.mem_takeWhile_imp hm
      simpa [notNL] using this
    cases hd : s.dropWhile notNL with
    | nil =>
      have hall : ∀ ch ∈ s, ch ≠ '\n' := by
        have h1 := List.dropWhile_eq_nil_iff.mp hd
        intro ch hm
        have := h1 ch hm
        simpa [notNL] using this
      rw [splitOnC_no_sep hall]
      have h2 := runsChar_line hall p c []
      rw [List.append_nil] at h2
      rw [h2, lineCount_cons_eq]
      simp [runsChar, lineCount]
    | cons ch s2 =>
      have hch : ch = '\n' := by
        have := dropWhile_head_not (p := notNL) (l := s) (by rw [hd]; rfl)
        simpa [notNL] using this
      subst hch
      have hseq : s = s.takeWhile notNL ++ '\n' :: s2 := by
        conv_lhs => rw [← hdec]
        rw [hd]
      have hlen : s2.length ≤ n := by
        have := congrArg List.length hseq
        simp at this
        omega
      rw [hseq, splitOnC_append htw, runsChar_line htw]
      rw [runsChar_cons_eq, if_pos rfl]
      rw [ih s2 hlen]
      rw [lineCount_cons_eq]

theorem lineCount_nbRuns : ∀ (ls : List Str) (p : Bool),
    lineCount p false ls = nbRunsAux p ls := by
  intro ls
  induction ls with
  | nil => intro p; rfl
  | cons l ls ih =>
    intro p
    unfold lineCount nbRunsAux
    cases hbl : allWs l with
    | true =>
      have hstrip : (strip l).isEmpty = true := by
        rw [List.isEmpty_iff]
        exact strip_eq_nil_iff.mpr hbl
      simp [hstrip, ih false]
    | false =>
      have hstrip : (strip l).isEmpty = false := by
        rw [Bool.eq_false_iff]
        intro hcon
        rw [List.isEmpty_iff] at hcon
        rw [strip_eq_nil_iff.mp hcon] at hbl
        cases hbl
      cases p <;> simp [hstrip, ih true]

theorem runsChar_ws_nl : ∀ (v : Str), allWs v = true → v.getLast? = some '\n' →
    ∀ (q : Bool) (s : Str), runsChar q false (v ++ s) = runsChar false false s := by
  intro v
  induction v with
  | nil => intro _ h; simp at h
  | cons a v' ih =>
    intro hws hlast q s
    rw [allWs_cons, Bool.and_eq_true] at hws
    by_cases ha : a = '\n'
    · subst ha
      rw [List.cons_append, runsChar_cons_eq, if_pos rfl]
      cases hv : v' with
      | nil => rfl
      | cons b v'' =>
        rw [← hv]
        apply ih hws.2 _ false s
        rw [hv] at hlast ⊢
        rw [List.getLast?_cons_cons] at hlast
        exact hlast
    · have hv' : v' ≠ [] := by
        intro he
        rw [he] at hlast
        simp at hlast
        exact ha hlast
      rw [List.cons_append, runsChar_cons_eq, if_neg ha, if_pos hws.1]
      apply ih hws.2 _ q s
      cases hv : v' with
      | nil => exact absurd hv hv'
      | cons b v'' =>
        rw [hv] at hlast
        rw [List.getLast?_cons_cons] at hlast
        exact hlast

theorem runsChar_sep {v s : Str} {p c : Bool} (hws : allWs v = true)
    (hlast : v.getLast? = some '\n') :
    runsChar p c ('\n' :: (v ++ s)) = runsChar false false s := by
  rw [runsChar_cons_eq, if_pos rfl]
  exact runsChar_ws_nl v hws hlast c s

theorem lastIdxOf_decomp {ch : Char} {l : Str} {j : Nat}
    (h : lastIdxOf ch l = some j) :
    ∃ u w, l = u ++ ch :: w ∧ u.length = j := by
  induction l generalizing j with
  | nil => cases h
  | cons x rest ih =>
    unfold lastIdxOf at h
    cases hr : lastIdxOf ch rest with
    | some j' =>
      rw [hr] at h
      injection h with h
      subst h
      rcases ih hr with ⟨u, w, he, hl⟩
      exact ⟨x :: u, w, by rw [he]; rfl, by simp [hl]⟩
    | none =>
      rw [hr] at h
      by_cases hx : x = ch
      · rw [if_pos hx] at h
        injection h with h
        refine ⟨[], rest, by simp [hx], by simp [← h]⟩
      · rw [if_neg hx] at h
        cases h

theorem lastIdxOf_none {ch : Char} {l : Str} (h : lastIdxOf ch l = none) :
    ∀ x ∈ l, x ≠ ch := by
  induction l with
  | nil => intro x hx; simp at hx
  | cons y rest ih =>
    unfold lastIdxOf at h
    cases hr : lastIdxOf ch rest with
    | some j => rw [hr] at h; cases h
    | none =>
      rw [hr] at h
      by_cases hy : y = ch
      · rw [if_pos hy] at h; cases h
      · rw [if_neg hy] at h
        intro x hx
        rcases List.mem_cons.mp hx with he | hm
        · subst he; exact hy
        · exact ih hr x hm

theorem findSep_some_decomp {rest r2 : Str} (h : findSep rest = some r2) :
    ∃ v, rest = v ++ r2 ∧ allWs v = true ∧ v.getLast? = some '\n' := by
  unfold findSep at h
  cases hl : lastIdxOf '\n' (rest.takeWhile pySpace) with
  | none => rw [hl] at h; cases h
  | some j =>
    rw [hl] at h
    injection h with h
    rcases lastIdxOf_decomp hl with ⟨u, w, he, hlen⟩
    refine ⟨rest.take (j + 1), ?_, ?_, ?_⟩
    · rw [← h]; exact (List.take_append_drop (j + 1) rest).symm
    · have hsub : List.Sublist (rest.take (j + 1)) rest := List.take_sublist _ _
      unfold allWs
      rw [List.all_eq_true]
      intro x hx
      have hx2 : x ∈ rest.take (j + 1) := hx
      -- every element of the take lies in the whitespace run
      have hrun : rest.take (j + 1) = (rest.takeWhile pySpace).take (j + 1) := by
        have hpre : rest = rest.takeWhile pySpace ++ rest.dropWhile pySpace :=
          (List.takeWhile_append_dropWhile pySpace rest).symm
        conv_lhs => rw [hpre]
        rw [List.take_append_of_le_length]
        rw [he, List.length_append, List.length_cons]
        omega
      rw [hrun] at hx2
      have hx3 : x ∈ rest.takeWhile pySpace := (List.take_sublist _ _).mem hx2
      exact List.mem_takeWhile_imp hx3
    · have hrun : rest.take (j + 1) = (rest.takeWhile pySpace).take (j + 1) := by
        have hpre : rest = rest.takeWhile pySpace ++ rest.dropWhile pySpace :=
          (List.takeWhile_append_dropWhile pySpace rest).symm
        conv_lhs => rw [hpre]
        rw [List.take_append_of_le_length]
        rw [he, List.length_append, List.length_cons]
        omega
      rw [hrun, he, ← hlen]
      have ht : (u ++ '\n' :: w).take (u.length + 1) = u ++ ['\n'] := by
        rw [List.take_append_eq_append_take]
        rw [List.take_of_length_le (by omega)]
        congr 1
        rw [show u.length + 1 - u.length = 1 by omega]
        rfl
      rw [ht]
      exact List.getLast?_concat _

theorem findSep_none_no_nl {rest : Str} (h : findSep rest = none) :
    ∀ ch ∈ rest.takeWhile pySpace, ch ≠ '\n' := by
  unfold findSep at h
  cases hl : lastIdxOf '\n' (rest.takeWhile pySpace) with
  | some j => rw [hl] at h; cases h
  | none => exact lastIdxOf_none hl


theorem txtChunk_isSome {ch : Str} :
    (txtChunk ch).isSome = !(strip ch).isEmpty := by
  unfold txtChunk
  by_cases hb : strip ch = []
  · rw [if_pos hb, hb]
    rfl
  · rw [if_neg hb]
    have hne : (splitOnC '\n' (strip ch)).map strip ≠ [] := by
      intro hcon
      exact splitOnC_ne_nil (List.map_eq_nil_iff.mp hcon)
    cases hls : (splitOnC '\n' (strip ch)).map strip with
    | nil => exact absurd hls hne
    | cons l1 rest =>
      have : (strip ch).isEmpty = false := by
        rw [Bool.eq_false_iff]
        intro hc
        exact hb (List.isEmpty_iff.mp hc)
      rw [this]
      rfl

theorem length_filterMap_txtChunk : ∀ pieces : List Str,
    (pieces.filterMap txtChunk).length
      = (pieces.filter (fun piece => !(strip piece).isEmpty)).length := by
  intro pieces
  induction pieces with
  | nil => rfl
  | cons p ps ih =>
    rw [List.filterMap_cons, List.filter_cons]
    cases hc : txtChunk p with
    | none =>
      have : (!(strip p).isEmpty) = false := by
        rw [← txtChunk_isSome, hc]
        rfl
      rw [this]
      simpa using ih
    | some r =>
      have : (!(strip p).isEmpty) = true := by
        rw [← txtChunk_isSome, hc]
        rfl
      rw [this]
      simp [ih]

/-- Has the current line of the piece being accumulated (in reverse) seen a
non-whitespace character? -/
def curNB (acc : Str) : Bool := !(allWs (acc.takeWhile notNL))

/-- Was the previously completed line of the piece being accumulated
non-blank? -/
def prevNB (acc : Str) : Bool :=
  !(allWs (((acc.dropWhile notNL).drop 1).takeWhile notNL))

theorem notNL_nl : notNL '\n' = false := rfl

theorem curNB_nl {acc : Str} : curNB ('\n' :: acc) = false := by
  unfold curNB
  rw [List.takeWhile_cons_of_neg (by rw [notNL_nl]; exact Bool.false_ne_true)]
  rfl

theorem prevNB_nl {acc : Str} : prevNB ('\n' :: acc) = curNB acc := by
  unfold prevNB curNB
  rw [List.dropWhile_cons_of_neg (by rw [notNL_nl]; exact Bool.false_ne_true)]
  rfl

theorem curNB_cons {ch : Char} {acc : Str} (h : ch ≠ '\n') :
    curNB (ch :: acc) = (!(pySpace ch) || curNB acc) := by
  unfold curNB
  rw [List.takeWhile_cons_of_pos (by simp [notNL, h])]
  rw [allWs_cons]
  simp

theorem prevNB_cons {ch : Char} {acc : Str} (h : ch ≠ '\n') :
    prevNB (ch :: acc) = prevNB acc := by
  unfold prevNB
  rw [List.dropWhile_cons_of_pos (by simp [notNL, h])]

theorem allWs_sublist {l' l : Str} (hs : List.Sublist l' l)
    (h : allWs l = true) : allWs l' = true := by
  unfold allWs at h ⊢
  rw [List.all_eq_true] at h ⊢
  exact fun x hx => h x (hs.mem hx)

theorem curNB_false_of_allWs {acc : Str} (h : allWs acc = true) :
    curNB acc = false := by
  unfold curNB
  rw [allWs_sublist (List.takeWhile_sublist _) h]
  rfl

theorem prevNB_false_of_allWs {acc : Str} (h : allWs acc = true) :
    prevNB acc = false := by
  unfold prevNB
  rw [allWs_sublist
    (((List.takeWhile_sublist _).trans (List.drop_sublist _ _)).trans
      (List.dropWhile_sublist _)) h]
  rfl

theorem takeWhile_eq_self_of_no_nl {acc : Str}
    (h : acc.any (fun ch => ch = '\n') = false) :
    acc.takeWhile notNL = acc := by
  induction acc with
  | nil => rfl
  | cons a rest ih =>
    rw [List.any_cons, Bool.or_eq_false_iff] at h
    rw [List.takeWhile_cons_of_pos (by simp [notNL]; simpa using h.1)]
    rw [ih h.2]

theorem piece_count_single (acc : Str) (tl : List Str) :
    ((acc.reverse :: tl).filter (fun piece => !(strip piece).isEmpty)).length
      = (if allWs acc = true then 0 else 1)
        + (tl.filter (fun piece => !(strip piece).isEmpty)).length := by
  rw [List.filter_cons]
  cases hws : allWs acc with
  | true =>
    have h1 : strip acc.reverse = [] :=
      strip_eq_nil_iff.mpr (by rw [allWs_reverse]; exact hws)
    simp [h1]
  | false =>
    have h1 : (strip acc.reverse).isEmpty = false := by
      rw [Bool.eq_false_iff]
      intro hc
      have := strip_eq_nil_iff.mp (List.isEmpty_iff.mp hc)
      rw [allWs_reverse] at this
      rw [this] at hws
      cases hws
    simp [h1, Nat.add_comm]

theorem sbAux_succ_eq {fuel : Nat} {acc : Str} {c : Char} {rest : Str} :
    sbAux (fuel + 1) acc (c :: rest)
      = if c = '\n' then
          (match findSep rest with
           | some r2 => acc.reverse :: sbAux fuel [] r2
           | none => sbAux fuel (c :: acc) rest)
        else sbAux fuel (c :: acc) rest := by
  conv_lhs => unfold sbAux

theorem sbAux_count : ∀ (fuel : Nat) (s acc : Str), s.length ≤ fuel →
    ((acc.any (fun ch => ch = '\n') = true ∧
        allWs (acc.takeWhile notNL) = true) →
      ∀ ch ∈ s.takeWhile pySpace, ch ≠ '\n') →
    (curNB acc = false → prevNB acc = false → allWs acc = true) →
    ((sbAux fuel acc s).filter (fun piece => !(strip piece).isEmpty)).length
      = (if allWs acc = true then 0 else 1)
        + runsChar (prevNB acc) (curNB acc) s := by
  intro fuel
  induction fuel with
  | zero =>
    intro s acc hs _ _
    have hnil : s = [] := List.length_eq_zero.mp (Nat.le_zero.mp hs)
    subst hnil
    rw [show sbAux 0 acc [] = [acc.reverse] from rfl]
    rw [piece_count_single acc []]
    rfl
  | succ fuel ih =>
    intro s acc hs hInv1 hInv2
    cases s with
    | nil =>
      rw [show sbAux (fuel + 1) acc [] = [acc.reverse] from rfl]
      rw [piece_count_single acc []]
      rfl
    | cons ch rest =>
      have hrest : rest.length ≤ fuel := by
        simp only [List.length_cons] at hs
        omega
      by_cases hch : ch = '\n'
      · subst hch
        cases hfs : findSep rest with
        | some r2 =>
          have hstep : sbAux (fuel + 1) acc ('\n' :: rest)
              = acc.reverse :: sbAux fuel [] r2 := by
            rw [sbAux_succ_eq, if_pos rfl, hfs]
          rw [hstep, piece_count_single]
          have hr2len : r2.length ≤ fuel :=
            le_trans (findSep_length_le hfs) hrest
          have hIH := ih r2 [] hr2len
            (by intro hcon; exact absurd hcon.1 (by simp))
            (fun _ _ => rfl)
          rw [hIH]
          rcases findSep_some_decomp hfs with ⟨v, hv, hws, hlast⟩
          rw [hv, runsChar_sep hws hlast]
          simp [show prevNB [] = false from rfl, show curNB [] = false from rfl,
            show allWs [] = true from rfl]
        | none =>
          have hstep : sbAux (fuel + 1) acc ('\n' :: rest)
              = sbAux fuel ('\n' :: acc) rest := by
            rw [sbAux_succ_eq, if_pos rfl, hfs]
          rw [hstep]
          have hNoNl := findSep_none_no_nl hfs
          have hInv1' : (('\n' :: acc).any (fun ch => ch = '\n') = true ∧
              allWs (('\n' :: acc).takeWhile notNL) = true) →
              ∀ ch ∈ rest.takeWhile pySpace, ch ≠ '\n' := fun _ => hNoNl
          have hInv2' : curNB ('\n' :: acc) = false →
              prevNB ('\n' :: acc) = false → allWs ('\n' :: acc) = true := by
            intro _ hp
            rw [prevNB_nl] at hp
            have hacc : allWs acc = true := by
              cases hany : acc.any (fun ch => ch = '\n') with
              | false =>
                have ht := takeWhile_eq_self_of_no_nl hany
                unfold curNB at hp
                rw [ht] at hp
                simpa using hp
              | true =>
                exfalso
                have h1 : allWs (acc.takeWhile notNL) = true := by
                  unfold curNB at hp
                  simpa using hp
                have h2 := hInv1 ⟨hany, h1⟩
                have h3 : '\n' ∈ ('\n' :: rest).takeWhile pySpace := by
                  rw [List.takeWhile_cons_of_pos (by decide)]
                  exact List.mem_cons_self _ _
                exact h2 '\n' h3 rfl
            rw [allWs_cons, hacc]
            decide
          have hIH := ih rest ('\n' :: acc) hrest hInv1' hInv2'
          rw [hIH]
          rw [runsChar_cons_eq, if_pos rfl]
          rw [curNB_nl, prevNB_nl]
          rw [show allWs ('\n' :: acc) = allWs acc by
            rw [allWs_cons]
            simp [pySpace]]
      · have hstep : sbAux (fuel + 1) acc (ch :: rest)
            = sbAux fuel (ch :: acc) rest := by
          rw [sbAux_succ_eq, if_neg hch]
        rw [hstep]
        have hInv1' : ((ch :: acc).any (fun c2 => c2 = '\n') = true ∧
            allWs ((ch :: acc).takeWhile notNL) = true) →
            ∀ c2 ∈ rest.takeWhile pySpace, c2 ≠ '\n' := by
          rintro ⟨h1, h2⟩
          rw [List.any_cons] at h1
          have h1' : acc.any (fun c2 => c2 = '\n') = true := by
            simpa [hch] using h1
          rw [List.takeWhile_cons_of_pos (by simp [notNL, hch])] at h2
          rw [allWs_cons, Bool.and_eq_true] at h2
          have hcon := hInv1 ⟨h1', h2.2⟩
          intro c2 hc2
          apply hcon
          rw [List.takeWhile_cons_of_pos h2.1]
          exact List.mem_cons_of_mem _ hc2
        have hInv2' : curNB (ch :: acc) = false → prevNB (ch :: acc) = false →
            allWs (ch :: acc) = true := by
          intro hc hp
          rw [curNB_cons hch] at hc
          rw [prevNB_cons hch] at hp
          rw [Bool.or_eq_false_iff] at hc
          have hacc := hInv2 hc.2 hp
          have hws : pySpace ch = true := by
            have := hc.1
            simpa using this
          rw [allWs_cons, hacc, hws]
          rfl
        have hIH := ih rest (ch :: acc) hrest hInv1' hInv2'
        rw [hIH]
        rw [runsChar_cons_eq, if_neg hch]
        rw [curNB_cons hch, prevNB_cons hch, allWs_cons]
        cases hws : pySpace ch with
        | true => simp
        | false =>
          cases hcn : curNB acc with
          | true =>
            have hna : allWs acc = false := by
              cases haw : allWs acc with
              | false => rfl
              | true => rw [curNB_false_of_allWs haw] at hcn; cases hcn
            simp [hna]
          | false =>
            cases hpn : prevNB acc with
            | true =>
              have hna : allWs acc = false := by
                cases haw : allWs acc with
                | false => rfl
                | true => rw [prevNB_false_of_allWs haw] at hpn; cases hpn
              simp [hna]
            | false =>
              have haw : allWs acc = true := hInv2 hcn hpn
              simp [haw]

/-- C7: the free-text parser emits exactly one record per non-blank
paragraph: for every input text, the number of emitted records equals the
number of maximal runs of non-blank lines, so no paragraph is ever discarded
for missing fields and no identity-field acceptance check is applied. -/
theorem C7_txt_paragraph_count (content : Str) :
    (parse_txt_file content).length = paragraphCount content := by
  unfold parse_txt_file splitBlank paragraphCount
  rw [length_filterMap_txtChunk]
  rw [sbAux_count content.length content [] le_rfl
    (by intro hcon; exact absurd hcon.1 (by simp)) (fun _ _ => rfl)]
  rw [show prevNB [] = false from rfl, show curNB [] = false from rfl,
    show allWs [] = true from rfl]
  rw [runsChar_lineCount content.length content le_rfl]
  rw [lineCount_nbRuns]
  simp
